import Mathlib

/-
Verification of the intent-resolution pipeline of the uv-mcp multimodal
assistant: the intent cache (src/core/intent_cache.py), the hybrid
rule/model intent recognizer (src/core/intent_recognizer.py) and the tool
router (src/core/tool_router.py) are shallowly embedded below, and the
spec's testable properties are settled against the embedding.

Modelling conventions:
  * Python floats are modelled as exact rationals; every literal involved
    (0.7, 0.8, 0.3, 0.25, ...) and every arithmetic step in the claims is
    exact in binary or compared only against such literals, so no claim
    hinges on floating-point rounding.
  * Python dicts are modelled as insertion-ordered association lists
    (CPython dicts preserve insertion order; overwriting keeps position).
  * Python sets are modelled as duplicate-free lists; only membership is
    relied upon except where a claim is settled through singleton buckets,
    where iteration order is determined regardless of hashing.
  * jieba segmentation (an external library) is a parameter
    `segment : String -> List String`; the source filters its tokens to
    those of length > 1 (IntentCache._extract_keywords).
  * the LLM transport and the JSON-extraction regex of
    IntentRecognizer._analyze_with_model are abstracted into a
    ModelOutcome: the call raised, the response had no brace-delimited
    group, or a JSON object was extracted and parsed.
-/

namespace Assistant

/-! ## Python-style string helpers -/

/-- Python substring test helper: does the pattern occur at the head? -/
def listStartsWith : List Char → List Char → Bool
  | [], _ => true
  | _ :: _, [] => false
  | a :: as, b :: bs => a = b && listStartsWith as bs

/-- Python `pat in hay` for strings, over the character lists. -/
def infixCheck (pat : List Char) : List Char → Bool
  | [] => listStartsWith pat []
  | c :: cs => listStartsWith pat (c :: cs) || infixCheck pat cs

/-- Python `needle in hay` substring containment. -/
def containsSub (needle hay : String) : Bool :=
  infixCheck needle.toList hay.toList

/-- Python truthiness of an optional string: None and the empty string are
falsy. -/
def pyTruthy : Option String → Bool
  | none => false
  | some s => if s = "" then false else true

/-- Python `a or b` on optional strings: the first truthy operand, else the
second operand. -/
def pyOrStr (a b : Option String) : Option String :=
  if pyTruthy a then a else b

/-- Python str.lower, per character (the inputs in play are ASCII letters
and CJK ideographs, on which per-character lowering agrees with
Python). -/
def pyLower (s : String) : String :=
  String.mk (s.toList.map Char.toLower)

/-! ## Data model (src/core/intent_recognizer.py: IntentType, Entity, Intent) -/

/-- IntentType enum from intent_recognizer.py. -/
inductive IntentType
  | CHAT
  | QUERY
  | COMMAND
  | TOOL_SPECIFIC
  | UNKNOWN
deriving DecidableEq, Repr

/-- The .name of an enum member, as used by Intent.to_dict. -/
def IntentType.name : IntentType → String
  | .CHAT => "CHAT"
  | .QUERY => "QUERY"
  | .COMMAND => "COMMAND"
  | .TOOL_SPECIFIC => "TOOL_SPECIFIC"
  | .UNKNOWN => "UNKNOWN"

/-- IntentType[s] lookup; none models the KeyError raised on an unknown
member name. -/
def intentTypeFromName (s : String) : Option IntentType :=
  if s = "CHAT" then some .CHAT
  else if s = "QUERY" then some .QUERY
  else if s = "COMMAND" then some .COMMAND
  else if s = "TOOL_SPECIFIC" then some .TOOL_SPECIFIC
  else if s = "UNKNOWN" then some .UNKNOWN
  else none

/-- The member-name list IntentType.__members__, used by
_parse_model_result. -/
def intentTypeMembers : List String :=
  ["CHAT", "QUERY", "COMMAND", "TOOL_SPECIFIC", "UNKNOWN"]

/-- Entity from intent_recognizer.py. -/
structure Entity where
  type : String
  value : String
  confidence : ℚ
deriving DecidableEq, Repr

/-- Intent from intent_recognizer.py. -/
structure Intent where
  type : IntentType
  confidence : ℚ
  tool_name : Option String
  entities : List Entity
  raw_query : String
deriving DecidableEq, Repr

/-- Serialized entity (Entity.to_dict). -/
structure EntityDict where
  type : String
  value : String
  confidence : ℚ
deriving DecidableEq, Repr

/-- Serialized intent (Intent.to_dict); the shape stored in the cache. -/
structure IntentDict where
  type : String
  confidence : ℚ
  tool_name : Option String
  entities : List EntityDict
  raw_query : String
deriving DecidableEq, Repr

/-- Entity.to_dict. -/
def Entity.toDict (e : Entity) : EntityDict :=
  { type := e.type, value := e.value, confidence := e.confidence }

/-- Intent.to_dict. -/
def Intent.toDict (i : Intent) : IntentDict :=
  { type := i.type.name
  , confidence := i.confidence
  , tool_name := i.tool_name
  , entities := i.entities.map Entity.toDict
  , raw_query := i.raw_query }

/-- Intent.from_dict; none models the KeyError that IntentType[...] raises
on an invalid stored type name. -/
def Intent.fromDict (d : IntentDict) : Option Intent :=
  (intentTypeFromName d.type).map fun t =>
    { type := t
    , confidence := d.confidence
    , tool_name := d.tool_name
    , entities := d.entities.map fun e =>
        { type := e.type, value := e.value, confidence := e.confidence }
    , raw_query := d.raw_query }

/-! ## RuleEngine (IntentRecognizer._apply_rules and helpers) -/

/-- TOOL_KEYWORDS table, in source (dict-insertion) order. -/
def toolKeywords : List (String × List String) :=
  [ ("weather", ["天气", "气温", "下雨", "温度", "湿度", "阴晴"])
  , ("market", ["商场", "商家", "店铺", "购物", "买东西", "超市", "专卖店"])
  , ("area_search", ["附近", "周边", "区域", "地方", "位置", "怎么走", "地址"]) ]

/-- COMMAND_KEYWORDS list. -/
def commandKeywords : List String :=
  ["设置", "更改", "修改", "切换", "保存", "重置", "清除", "删除"]

/-- The nested loop of _apply_rules: the first tool one of whose keywords
occurs in the text wins, and the number of that tool's keywords occurring
is counted. -/
def findToolMatchAux (text : String) : List (String × List String) → Option (String × Nat)
  | [] => none
  | (tool, kws) :: rest =>
    if kws.any fun kw => containsSub kw text then
      some (tool, (kws.filter fun kw => containsSub kw text).length)
    else findToolMatchAux text rest

/-- Rule confidence: base 0.7, raised to min(0.9, 0.7 + 0.1 * matched) when
more than one keyword of the tool matched; 0.7 + 0.1 * matched is written
as the single fraction (7 + matched)/10 so the kernel can evaluate it. -/
def ruleConfidence (matched : Nat) : ℚ :=
  if 1 < matched then min (mkRat 9 10) (mkRat (7 + matched) 10) else mkRat 7 10

/-- Python word character for the patterns of _extract_basic_entities:
ASCII alphanumerics, underscore, and CJK ideographs (the character classes
exercised by this repository's queries). -/
def isWordChar (c : Char) : Bool :=
  c.isAlphanum || c = '_' || (0x4E00 ≤ c.toNat && c.toNat ≤ 0x9FFF)

/-- re.search for a marker character followed by a maximal nonempty word
run (patterns 在([\w]+) and 去([\w]+)). -/
def searchAfterChar (mark : Char) : List Char → Option (List Char)
  | [] => none
  | c :: cs =>
    if c = mark then
      let run := cs.takeWhile isWordChar
      if run = [] then searchAfterChar mark cs else some run
    else searchAfterChar mark cs

/-- The two literal alternatives of pattern ([\w]+)(附近|周边). -/
def nearMarks : List (List Char) :=
  [String.toList "附近", String.toList "周边"]

/-- Greedy-with-backtracking capture at one start position: the longest
nonempty word-run that is followed by 附近 or 周边. -/
def tryCaptureLens (cs : List Char) : Nat → Option (List Char)
  | 0 => none
  | j + 1 =>
    if nearMarks.any fun m => listStartsWith m (cs.drop (j + 1)) then
      some (cs.take (j + 1))
    else tryCaptureLens cs j

/-- re.search of ([\w]+)(附近|周边): leftmost start position wins. -/
def searchRunBefore : List Char → Option (List Char)
  | [] => none
  | c :: cs =>
    match tryCaptureLens (c :: cs) ((c :: cs).takeWhile isWordChar).length with
    | some r => some r
    | none => searchRunBefore cs

/-- IntentRecognizer._extract_basic_entities: first matching location
pattern wins; returns the captured location if any. -/
def extractLocation (text : String) : Option String :=
  match searchAfterChar '在' text.toList with
  | some r => some (String.mk r)
  | none =>
    match searchRunBefore text.toList with
    | some r => some (String.mk r)
    | none => (searchAfterChar '去' text.toList).map String.mk

/-- IntentRecognizer._apply_rules. -/
def applyRules (text : String) : Option Intent :=
  let text := pyLower text
  match findToolMatchAux text toolKeywords with
  | some (tool, matched) =>
    some { type := .TOOL_SPECIFIC
         , confidence := ruleConfidence matched
         , tool_name := some tool
         , entities := (extractLocation text).elim []
             fun loc => [{ type := "location", value := loc, confidence := mkRat 8 10 }]
         , raw_query := text }
  | none =>
    if commandKeywords.any fun cmd => containsSub cmd text then
      some { type := .COMMAND, confidence := mkRat 65 100, tool_name := none
           , entities := [], raw_query := text }
    else none

/-! ## ModelAnalyzer (IntentRecognizer._analyze_with_model,
_parse_model_result) -/

/-- The JSON object the model may produce; optional fields model dict.get
defaults. -/
structure ModelDict where
  intent_type : Option String
  confidence : Option ℚ
  tool_name : Option String
  entities : Option (List EntityDict)
deriving DecidableEq, Repr

/-- Outcome of the LLM call plus JSON extraction in _analyze_with_model:
the transport (or any code in the try block, e.g. json.loads) raised, the
response matched no brace-delimited group, or a JSON object was parsed. -/
inductive ModelOutcome
  | raised
  | noJson
  | json (d : ModelDict)
deriving DecidableEq, Repr

/-- IntentRecognizer._parse_model_result. -/
def parseModelResult (d : ModelDict) (rawQuery : String) : Intent :=
  let s := d.intent_type.getD "UNKNOWN"
  let t := if s ∈ intentTypeMembers then (intentTypeFromName s).getD .UNKNOWN
           else .UNKNOWN
  { type := t
  , confidence := d.confidence.getD (mkRat 1 2)
  , tool_name := if d.tool_name = some "null" then none else d.tool_name
  , entities := (d.entities.getD []).map fun e =>
      { type := e.type, value := e.value, confidence := e.confidence }
  , raw_query := rawQuery }

/-- IntentRecognizer._analyze_with_model, as a function of the abstracted
outcome: no JSON found returns UNKNOWN at 0.3, any exception returns CHAT
at 0.3, a parsed JSON object is mapped by _parse_model_result. The
function is total: no exception escapes this boundary. -/
def analyzeWithModel (outcome : ModelOutcome) (userInput : String) : Intent :=
  match outcome with
  | .json d => parseModelResult d userInput
  | .noJson => { type := .UNKNOWN, confidence := mkRat 3 10, tool_name := none
               , entities := [], raw_query := userInput }
  | .raised => { type := .CHAT, confidence := mkRat 3 10, tool_name := none
               , entities := [], raw_query := userInput }

/-! ## IntentMerger (IntentRecognizer._merge_intents) -/

/-- The f-string key of the entity de-duplication map. -/
def entityKey (e : Entity) : String := e.type ++ ":" ++ e.value

/-- One step of populating entity_map: insert, or replace in place when the
new entity has strictly greater confidence. -/
def upsertEntity : List Entity → Entity → List Entity
  | [], e => [e]
  | x :: xs, e =>
    if entityKey x = entityKey e then
      (if x.confidence < e.confidence then e else x) :: xs
    else x :: upsertEntity xs e

/-- IntentRecognizer._merge_intents. -/
def mergeIntents (rule modelI : Intent) : Intent :=
  let t := if modelI.confidence < rule.confidence then rule.type else modelI.type
  let tool :=
    if pyTruthy rule.tool_name && pyTruthy modelI.tool_name then
      (if mkRat 7 10 < rule.confidence then rule.tool_name else modelI.tool_name)
    else pyOrStr rule.tool_name modelI.tool_name
  { type := t
  , confidence := max rule.confidence modelI.confidence
  , tool_name := tool
  , entities := (rule.entities ++ modelI.entities).foldl upsertEntity []
  , raw_query := rule.raw_query }

/-! ## IntentCache (src/core/intent_cache.py)

The exact cache is an insertion-ordered association list (a CPython dict);
the keyword index maps keywords to buckets of query texts (Python sets,
modelled as duplicate-free lists). jieba segmentation is the parameter
`segment`. -/

/-- Association-list lookup on string keys (Python dict access). -/
def alookup {α : Type} (k : String) : List (String × α) → Option α
  | [] => none
  | p :: ps => if p.1 = k then some p.2 else alookup k ps

/-- Python dict assignment: overwrite in place when the key is present,
append otherwise. -/
def assocInsert {α : Type} (l : List (String × α)) (q : String) (v : α) :
    List (String × α) :=
  if q ∈ l.map Prod.fst then
    l.map fun p => if p.1 = q then (q, v) else p
  else l ++ [(q, v)]

/-- IntentCache state: max_entries, exact_cache, keyword_index. -/
structure IntentCache (α : Type) where
  maxEntries : Nat
  exact : List (String × α)
  index : List (String × List String)
deriving Repr

/-- A fresh cache (no persisted file present). -/
def emptyCache (α : Type) (maxEntries : Nat) : IntentCache α :=
  { maxEntries := maxEntries, exact := [], index := [] }

/-- IntentCache._extract_keywords: segment, then drop tokens of length
at most 1. -/
def extractKeywords (segment : String → List String) (text : String) :
    List String :=
  (segment text).filter fun w => 1 < w.length

/-- One keyword of IntentCache._index_keywords: create the bucket if
missing, then set-insert the query. -/
def indexAdd : List (String × List String) → String → String →
    List (String × List String)
  | [], k, q => [(k, [q])]
  | p :: ps, k, q =>
    if p.1 = k then (k, if q ∈ p.2 then p.2 else p.2 ++ [q]) :: ps
    else p :: indexAdd ps k q

/-- IntentCache._index_keywords. -/
def indexKeywords (segment : String → List String)
    (idx : List (String × List String)) (query : String) :
    List (String × List String) :=
  (extractKeywords segment query).foldl (fun idx k => indexAdd idx k query) idx

/-- One keyword of the index-removal loop of IntentCache._cleanup_cache:
if the bucket exists and holds the query, remove the query, deleting the
bucket when it becomes empty. -/
def removeQuery : List (String × List String) → String → String →
    List (String × List String)
  | [], _, _ => []
  | p :: ps, k, query =>
    if p.1 = k then
      if query ∈ p.2 then
        let b := p.2.filter fun x => ¬ (x = query)
        if b = [] then ps else (k, b) :: ps
      else p :: ps
    else p :: removeQuery ps k query

/-- The index-removal loop of IntentCache._cleanup_cache for one evicted
key. -/
def removeFromIndex (segment : String → List String)
    (idx : List (String × List String)) (key : String) :
    List (String × List String) :=
  (extractKeywords segment key).foldl (fun idx k => removeQuery idx k key) idx

/-- Eviction of one key in IntentCache._cleanup_cache: drop its keyword
memberships, then delete it from the exact cache (dict keys are unique, so
the del is a filter). -/
def evictKey (segment : String → List String) {α : Type}
    (c : IntentCache α) (key : String) : IntentCache α :=
  { c with exact := c.exact.filter fun p => ¬ (p.1 = key)
         , index := removeFromIndex segment c.index key }

/-- IntentCache._cleanup_cache: return unless the size exceeds half the
capacity, else evict the first int(size * 0.25) keys in insertion order
(0.25 is a power of two, so int(size * 0.25) is exactly size / 4). -/
def cleanupCache (segment : String → List String) {α : Type}
    (c : IntentCache α) : IntentCache α :=
  if 2 * c.exact.length ≤ c.maxEntries then c
  else
    let n := c.exact.length / 4
    ((c.exact.map Prod.fst).take n).foldl (evictKey segment) c

/-- IntentCache.add (the periodic save is I/O and is omitted). -/
def IntentCache.add (segment : String → List String) {α : Type}
    (c : IntentCache α) (query : String) (v : α) : IntentCache α :=
  let c := if c.maxEntries ≤ c.exact.length then cleanupCache segment c else c
  { c with exact := assocInsert c.exact query v
         , index := indexKeywords segment c.index query }

/-- IntentCache._find_candidates: a dict from candidate query to number of
shared keywords, in first-seen order. -/
def bumpCandidate : List (String × Nat) → String → List (String × Nat)
  | [], q => [(q, 1)]
  | p :: ps, q => if p.1 = q then (q, p.2 + 1) :: ps else p :: bumpCandidate ps q

/-- IntentCache._find_candidates. -/
def findCandidates (idx : List (String × List String)) (kws : List String) :
    List (String × Nat) :=
  kws.foldl
    (fun cands k =>
      match alookup k idx with
      | none => cands
      | some bucket => bucket.foldl bumpCandidate cands)
    []

/-- The per-candidate similarity of IntentCache._find_best_match: Jaccard
as overlap / (|query set| + |candidate set| - overlap), guarded to 0 when
the denominator is 0. qset is the already-deduplicated query keyword
set. -/
def candidateSim (segment : String → List String) (qset : List String)
    (cand : String) : ℚ :=
  let cset := (extractKeywords segment cand).dedup
  let overlap := (qset.filter fun w => w ∈ cset).length
  let denom := qset.length + cset.length - overlap
  if 0 < denom then mkRat overlap denom else 0

/-- IntentCache._find_best_match: fold keeping the first candidate whose
similarity strictly exceeds the best so far, starting from ("", 0.0). -/
def findBestMatch (segment : String → List String)
    (queryKeywords : List String) (cands : List (String × Nat)) :
    String × ℚ :=
  let qset := queryKeywords.dedup
  cands.foldl
    (fun best c =>
      let s := candidateSim segment qset c.1
      if best.2 < s then (c.1, s) else best)
    ("", 0)

/-- IntentCache.lookup: exact match first, then keyword (fuzzy) match.
The final exact_cache[best_match] access is modelled by alookup; under the
cache well-formedness invariant the key is always present. -/
def IntentCache.lookup (segment : String → List String) {α : Type}
    (c : IntentCache α) (query : String) (threshold : ℚ) : Option α :=
  match alookup query c.exact with
  | some v => some v
  | none =>
    let kws := extractKeywords segment query
    if kws = [] then none
    else
      let cands := findCandidates c.index kws
      if cands = [] then none
      else
        let bm := findBestMatch segment kws cands
        if threshold ≤ bm.2 then alookup bm.1 c.exact else none

/-- IntentCache.load_cache on a successfully parsed file: take the stored
exact cache and rebuild the keyword index from its keys. -/
def loadCache (segment : String → List String) {α : Type} (maxEntries : Nat)
    (loaded : List (String × α)) : IntentCache α :=
  { maxEntries := maxEntries
  , exact := loaded
  , index := loaded.foldl (fun idx p => indexKeywords segment idx p.1) [] }

/-- Bucket membership of the keyword index, as executed by the source
(first matching bucket). -/
def memIdxB (idx : List (String × List String)) (k q : String) : Bool :=
  match alookup k idx with
  | some b => decide (q ∈ b)
  | none => false

/-! ## IntentRecognizer.recognize -/

/-- Which path recognize took: a cache hit (reconstructed via
Intent.from_dict), the high-confidence rule shortcut (model not invoked),
or the merge of rule and model results (model invoked). -/
inductive RecognizeResult
  | fromCache (i : Option Intent)
  | ruleShortcut (i : Intent)
  | merged (i : Intent)
deriving DecidableEq, Repr

/-- IntentRecognizer.recognize with use_cache enabled, abstracting the LLM
call into the ModelOutcome parameter; returns the taken path and the
updated cache. -/
def recognize (segment : String → List String)
    (cache : IntentCache IntentDict) (text : String)
    (outcome : ModelOutcome) : RecognizeResult × IntentCache IntentDict :=
  match IntentCache.lookup segment cache text (mkRat 7 10) with
  | some d => (.fromCache (Intent.fromDict d), cache)
  | none =>
    match applyRules text with
    | some r =>
      if mkRat 8 10 < r.confidence then
        (.ruleShortcut r, cache.add segment text r.toDict)
      else
        let m := analyzeWithModel outcome text
        let f := mergeIntents r m
        (.merged f, cache.add segment text f.toDict)
    | none =>
      let m := analyzeWithModel outcome text
      let f := mergeIntents
        { type := .UNKNOWN, confidence := 0, tool_name := none
        , entities := [], raw_query := text } m
      (.merged f, cache.add segment text f.toDict)

/-! ## ToolRouter (src/core/tool_router.py) -/

/-- ToolStatus enum. -/
inductive ToolStatus
  | success
  | error
  | pending
  | notFound
deriving DecidableEq, Repr

/-- ToolResult (the raw_response field is transport data and is omitted). -/
structure ToolResultM where
  status : ToolStatus
  data : Option String
  message : String
deriving DecidableEq, Repr

/-- Observable side effects of execute_tool_async: a connection attempt to
a tool process, or an invocation of a method over a session. -/
inductive RouterEvent
  | connectAttempt (tool : String)
  | invoke (tool : String) (method : String)
deriving DecidableEq, Repr

/-- The keys of ToolRouter.tool_mapping. -/
def registeredTools : List String := ["weather", "market", "area_search"]

/-- ToolRouter._extract_params_from_intent: entity types/values in order
(later entities of the same type overwrite), plus ambient context location
and venue from the state manager, abstracted as optional strings subject
to Python truthiness. -/
def extractParamsFromIntent (i : Intent)
    (ambientLocation ambientVenue : Option String) :
    List (String × String) :=
  let ps := i.entities.foldl (fun ps e => assocInsert ps e.type e.value) []
  let ps :=
    if i.tool_name = some "weather" ∧ alookup "location" ps = none then
      match ambientLocation with
      | some l => if l = "" then ps else assocInsert ps "location" l
      | none => ps
    else ps
  if i.tool_name = some "area_search" ∧ alookup "venue" ps = none then
    match ambientVenue with
    | some v => if v = "" then ps else assocInsert ps "venue" v
    | none => ps
  else ps

/-- ToolRouter._select_method_and_params, method-name component. -/
def selectMethod (intent : Intent) (toolName : String)
    (rawParams : List (String × String)) : String :=
  if toolName = "weather" then "query_weather"
  else if toolName = "market" then
    if (alookup "category" rawParams).isSome then "list_category"
    else "find_product"
  else if toolName = "area_search" then
    let poi := pyLower ((alookup "poi_type" rawParams).getD "")
    if poi = "restaurant" || containsSub "食" intent.raw_query then
      "search_nearby_food"
    else if poi = "shopping" || containsSub "购物" intent.raw_query then
      "search_nearby_shopping"
    else if poi = "entertainment" || containsSub "娱乐" intent.raw_query then
      "search_nearby_entertainment"
    else "search_nearby"
  else ""

/-- The Chinese-to-canonical city table of ToolRouter._map_weather_params,
in source order. -/
def locationMapping : List (String × String) :=
  [ ("重庆", "Chongqing"), ("永川", "Yongchuan"), ("北京", "Beijing")
  , ("上海", "Shanghai"), ("广州", "Guangzhou"), ("深圳", "Shenzhen")
  , ("成都", "Chengdu"), ("杭州", "Hangzhou"), ("南京", "Nanjing")
  , ("武汉", "Wuhan"), ("西安", "Xian"), ("天津", "Tianjin")
  , ("苏州", "Suzhou"), ("长沙", "Changsha"), ("郑州", "Zhengzhou")
  , ("青岛", "Qingdao"), ("大连", "Dalian"), ("沈阳", "Shenyang")
  , ("哈尔滨", "Harbin"), ("济南", "Jinan"), ("昆明", "Kunming")
  , ("厦门", "Xiamen"), ("福州", "Fuzhou"), ("南宁", "Nanning")
  , ("贵阳", "Guiyang"), ("兰州", "Lanzhou") ]

/-- Cleaning of a place name: str.replace of each administrative suffix
character with the empty string removes every occurrence of that
character, i.e. filters it out. -/
def cleanLocation (loc : String) : String :=
  String.mk (loc.toList.filter fun c => ¬ (c ∈ ['市', '区', '县', '镇', '省']))

/-- City canonicalization of ToolRouter._map_weather_params: full-name
match, then cleaned-name match, then first table entry whose name occurs
in the location or its cleaned form, then the default "Chongqing". -/
def resolveCity (location : String) : String :=
  let cleaned := cleanLocation location
  match alookup location locationMapping with
  | some c => c
  | none =>
    match alookup cleaned locationMapping with
    | some c => c
    | none =>
      match locationMapping.find?
          (fun p => containsSub p.1 location || containsSub p.1 cleaned) with
      | some p => p.2
      | none => "Chongqing"

/-- Location-source selection of ToolRouter._map_weather_params: the
raw_params location, else (when the intent has entities) the first entity
typed location/city/place, else the ambient state-manager location; a
falsy result defaults to 重庆. -/
def weatherLocation (intent : Intent) (rawParams : List (String × String))
    (ambient : Option String) : String :=
  let locO : Option String :=
    match alookup "location" rawParams with
    | some l => some l
    | none =>
      if intent.entities ≠ [] then
        (intent.entities.find? fun e =>
          pyLower e.type ∈ ["location", "city", "place"]).map Entity.value
      else ambient
  match locO with
  | some l => if l = "" then "重庆" else l
  | none => "重庆"

/-- ToolRouter._map_weather_params: the produced city parameter. -/
def mapWeatherCity (intent : Intent) (rawParams : List (String × String))
    (ambient : Option String) : String :=
  resolveCity (weatherLocation intent rawParams ambient)

/-- ToolRouter.execute_tool_async over an explicit session table (tool
name to advertised method names), with the lazy-connect outcome and the
call outcome abstracted as parameters; returns the ToolResult together
with the trace of connection attempts and invocations performed. -/
def executeToolM (sessions : List (String × List String)) (intent : Intent)
    (connectOutcome : Option (List String))
    (callOutcome : Except String String)
    (rawParams : List (String × String)) :
    ToolResultM × List RouterEvent :=
  match intent.tool_name with
  | none => ({ status := .notFound, data := none, message := "未知工具: None" }, [])
  | some t =>
    if t ∈ registeredTools then
      let reconnect := (alookup t sessions).isNone
      let sessions2 :=
        if reconnect then
          match connectOutcome with
          | some ops => sessions ++ [(t, ops)]
          | none => sessions
        else sessions
      let evs : List RouterEvent := if reconnect then [.connectAttempt t] else []
      match alookup t sessions2 with
      | none => ({ status := .error, data := none
                 , message := "无法连接到工具: " ++ t }, evs)
      | some ops =>
        let m := selectMethod intent t rawParams
        if m ∈ ops then
          match callOutcome with
          | .ok text => ({ status := .success, data := some text
                         , message := "工具执行成功" }, evs ++ [.invoke t m])
          | .error e => ({ status := .error, data := none
                         , message := "工具执行异常: " ++ e }, evs ++ [.invoke t m])
        else ({ status := .error, data := none
              , message := "工具 " ++ t ++ " 不支持方法: " ++ m }, evs)
    else ({ status := .notFound, data := none
          , message := "未知工具: " ++ t }, [])

/-! ## Specification-side definitions -/

/-- The Jaccard similarity exactly as the spec words it: the cardinality
of the intersection of the two keyword sets over the cardinality of their
union (0 when both sets are empty, since division by zero is 0). -/
def jaccardSpec (A B : List String) : ℚ :=
  ((A.toFinset ∩ B.toFinset).card : ℚ) / ((A.toFinset ∪ B.toFinset).card : ℚ)

/-! ## Association-list lemmas -/

theorem alookup_nil {α : Type} (q : String) : alookup q ([] : List (String × α)) = none := rfl

theorem alookup_cons {α : Type} (p : String × α) (l : List (String × α)) (q : String) :
    alookup q (p :: l) = if p.1 = q then some p.2 else alookup q l := rfl

theorem alookup_eq_none_of_not_mem {α : Type} {l : List (String × α)} {q : String}
    (h : q ∉ l.map Prod.fst) : alookup q l = none := by
  induction l with
  | nil => rfl
  | cons p t ih =>
    simp only [List.map_cons, List.mem_cons, not_or] at h
    rw [alookup_cons, if_neg (fun hh => h.1 hh.symm), ih h.2]

theorem mem_keys_of_alookup_isSome {α : Type} {l : List (String × α)} {q : String}
    (h : (alookup q l).isSome) : q ∈ l.map Prod.fst := by
  by_contra hq
  rw [alookup_eq_none_of_not_mem hq] at h
  simp at h

theorem alookup_isSome_of_mem_keys {α : Type} {l : List (String × α)} {q : String}
    (h : q ∈ l.map Prod.fst) : (alookup q l).isSome := by
  induction l with
  | nil => simp at h
  | cons p t ih =>
    rw [alookup_cons]
    by_cases hp : p.1 = q
    · simp [hp]
    · simp only [List.map_cons, List.mem_cons] at h
      rcases h with h | h

      · exact absurd h.symm hp
      · simpa [hp] using ih h

theorem alookup_append_left {α : Type} {l₁ : List (String × α)} (l₂ : List (String × α))
    {q : String} {v : α} (h : alookup q l₁ = some v) :
    alookup q (l₁ ++ l₂) = some v := by
  induction l₁ with
  | nil => simp [alookup_nil] at h
  | cons p t ih =>
    rw [alookup_cons] at h
    rw [List.cons_append, alookup_cons]
    by_cases hp : p.1 = q
    · rwa [if_pos hp] at h ⊢
    · rw [if_neg hp] at h ⊢
      exact ih h

theorem alookup_append_right {α : Type} {l₁ : List (String × α)} (l₂ : List (String × α))
    {q : String} (h : alookup q l₁ = none) :
    alookup q (l₁ ++ l₂) = alookup q l₂ := by
  induction l₁ with
  | nil => rfl
  | cons p t ih =>
    rw [alookup_cons] at h
    rw [List.cons_append, alookup_cons]
    by_cases hp : p.1 = q
    · rw [if_pos hp] at h; cases h
    · rw [if_neg hp] at h ⊢
      exact ih h

theorem assocInsert_keys {α : Type} (l : List (String × α)) (q : String) (v : α) :
    (assocInsert l q v).map Prod.fst =
      if q ∈ l.map Prod.fst then l.map Prod.fst else l.map Prod.fst ++ [q] := by
  unfold assocInsert
  by_cases h : q ∈ l.map Prod.fst
  · rw [if_pos h, if_pos h, List.map_map]
    refine List.map_congr_left fun p hp => ?_
    by_cases hpq : p.1 = q
    · simp [Function.comp, hpq]
    · simp [Function.comp, hpq]
  · rw [if_neg h, if_neg h]
    simp

theorem mem_assocInsert_keys {α : Type} (l : List (String × α)) (q : String) (v : α)
    (q2 : String) :
    q2 ∈ (assocInsert l q v).map Prod.fst ↔ q2 ∈ l.map Prod.fst ∨ q2 = q := by
  rw [assocInsert_keys]
  by_cases h : q ∈ l.map Prod.fst
  · rw [if_pos h]
    constructor
    · exact Or.inl
    · rintro (h2 | rfl)
      · exact h2
      · exact h
  · rw [if_neg h]
    simp

theorem assocInsert_keys_nodup {α : Type} {l : List (String × α)} (q : String) (v : α)
    (h : (l.map Prod.fst).Nodup) : ((assocInsert l q v).map Prod.fst).Nodup := by
  rw [assocInsert_keys]
  by_cases hq : q ∈ l.map Prod.fst
  · rwa [if_pos hq]
  · rw [if_neg hq]
    refine h.append (List.nodup_singleton q) ?_
    intro x hx hxq
    rw [List.mem_singleton] at hxq
    subst hxq
    exact hq hx

theorem alookup_assocInsert_self {α : Type} (l : List (String × α)) (q : String) (v : α) :
    alookup q (assocInsert l q v) = some v := by
  unfold assocInsert
  by_cases h : q ∈ l.map Prod.fst
  · rw [if_pos h]
    induction l with
    | nil => simp at h
    | cons p t ih =>
      by_cases hp : p.1 = q
      · have hfp : (if p.1 = q then (q, v) else p) = (q, v) := if_pos hp
        rw [List.map_cons, hfp, alookup_cons, if_pos rfl]
      · have hfp : (if p.1 = q then (q, v) else p) = p := if_neg hp
        simp only [List.map_cons, List.mem_cons] at h
        rcases h with h | h
        · exact absurd h.symm hp
        · rw [List.map_cons, hfp, alookup_cons, if_neg hp]
          exact ih h
  · rw [if_neg h]
    rw [alookup_append_right _ (alookup_eq_none_of_not_mem h)]
    simp [alookup_cons]

theorem assocInsert_length_of_mem {α : Type} {l : List (String × α)} {q : String} (v : α)
    (h : q ∈ l.map Prod.fst) : (assocInsert l q v).length = l.length := by
  unfold assocInsert
  rw [if_pos h, List.length_map]

theorem assocInsert_length_of_not_mem {α : Type} {l : List (String × α)} {q : String} (v : α)
    (h : q ∉ l.map Prod.fst) : (assocInsert l q v).length = l.length + 1 := by
  unfold assocInsert
  rw [if_neg h, List.length_append, List.length_cons, List.length_nil]

theorem filter_keys_mem {α : Type} (l : List (String × α)) (key q : String) :
    q ∈ (l.filter fun p => ¬ (p.1 = key)).map Prod.fst ↔
      q ∈ l.map Prod.fst ∧ ¬ (q = key) := by
  simp only [List.mem_map, List.mem_filter, decide_not, Bool.not_eq_eq_eq_not,
    Bool.not_true, decide_eq_false_iff_not]
  constructor
  · rintro ⟨p, ⟨hp, hne⟩, rfl⟩
    exact ⟨⟨p, hp, rfl⟩, hne⟩
  · rintro ⟨⟨p, hp, rfl⟩, hne⟩
    exact ⟨p, ⟨hp, hne⟩, rfl⟩

/-! ## Keyword-index lemmas -/

theorem memIdxB_nil (k q : String) : memIdxB [] k q = false := rfl

theorem memIdxB_true_iff (idx : List (String × List String)) (k q : String) :
    memIdxB idx k q = true ↔ ∃ b, alookup k idx = some b ∧ q ∈ b := by
  unfold memIdxB
  cases h : alookup k idx with
  | none => simp
  | some b => simp

theorem alookup_indexAdd_ne (idx : List (String × List String)) (k q k2 : String)
    (h : ¬ (k2 = k)) : alookup k2 (indexAdd idx k q) = alookup k2 idx := by
  induction idx with
  | nil =>
    simp only [indexAdd, alookup_cons, alookup_nil]
    rw [if_neg (fun hh => h hh.symm)]
  | cons p t ih =>
    unfold indexAdd
    by_cases hp : p.1 = k
    · rw [if_pos hp, alookup_cons, alookup_cons]
      have : ¬ (k = k2) := fun hh => h hh.symm
      rw [if_neg this, if_neg (by rw [hp]; exact this)]
    · rw [if_neg hp, alookup_cons, alookup_cons]
      by_cases hpk : p.1 = k2
      · rw [if_pos hpk, if_pos hpk]
      · rw [if_neg hpk, if_neg hpk, ih]

theorem alookup_indexAdd_self (idx : List (String × List String)) (k q : String) :
    alookup k (indexAdd idx k q) =
      some (match alookup k idx with
            | none => [q]
            | some b => if q ∈ b then b else b ++ [q]) := by
  induction idx with
  | nil => simp [indexAdd, alookup_cons, alookup_nil]
  | cons p t ih =>
    unfold indexAdd
    by_cases hp : p.1 = k
    · rw [if_pos hp, alookup_cons, if_pos rfl, alookup_cons, if_pos hp]
    · rw [if_neg hp, alookup_cons, if_neg hp, alookup_cons, if_neg hp, ih]

theorem alookup_indexAdd_self_none {idx : List (String × List String)} {k : String}
    (q : String) (h : alookup k idx = none) :
    alookup k (indexAdd idx k q) = some [q] := by
  rw [alookup_indexAdd_self, h]

theorem alookup_indexAdd_self_some {idx : List (String × List String)} {k : String}
    (q : String) {b : List String} (h : alookup k idx = some b) :
    alookup k (indexAdd idx k q) = some (if q ∈ b then b else b ++ [q]) := by
  rw [alookup_indexAdd_self, h]

theorem memIdxB_indexAdd (idx : List (String × List String)) (k q k2 q2 : String) :
    memIdxB (indexAdd idx k q) k2 q2 = true ↔
      memIdxB idx k2 q2 = true ∨ (k2 = k ∧ q2 = q) := by
  by_cases hk : k2 = k
  · subst hk
    cases hb : alookup k2 idx with
    | none =>
      rw [memIdxB_true_iff, memIdxB_true_iff, alookup_indexAdd_self_none q hb, hb]
      constructor
      · rintro ⟨b2, hb2, hm⟩
        rw [Option.some.injEq] at hb2
        subst hb2
        rw [List.mem_singleton] at hm
        exact Or.inr ⟨rfl, hm⟩
      · rintro (⟨b2, hb2, -⟩ | ⟨-, hq2⟩)
        · cases hb2
        · exact ⟨[q], rfl, by rw [List.mem_singleton]; exact hq2⟩
    | some b =>
      rw [memIdxB_true_iff, memIdxB_true_iff, alookup_indexAdd_self_some q hb, hb]
      by_cases hq : q ∈ b
      · rw [if_pos hq]
        constructor
        · rintro ⟨b2, hb2, hm⟩
          rw [Option.some.injEq] at hb2
          subst hb2
          exact Or.inl ⟨b, rfl, hm⟩
        · rintro (⟨b2, hb2, hm⟩ | ⟨-, hq2⟩)
          · rw [Option.some.injEq] at hb2
            subst hb2
            exact ⟨b, rfl, hm⟩
          · exact ⟨b, rfl, by rw [hq2]; exact hq⟩
      · rw [if_neg hq]
        constructor
        · rintro ⟨b2, hb2, hm⟩
          rw [Option.some.injEq] at hb2
          subst hb2
          rw [List.mem_append, List.mem_singleton] at hm
          rcases hm with hm | hm
          · exact Or.inl ⟨b, rfl, hm⟩
          · exact Or.inr ⟨rfl, hm⟩
        · rintro (⟨b2, hb2, hm⟩ | ⟨-, hq2⟩)
          · rw [Option.some.injEq] at hb2
            subst hb2
            exact ⟨b ++ [q], rfl, by rw [List.mem_append]; exact Or.inl hm⟩
          · exact ⟨b ++ [q], rfl,
              by rw [List.mem_append, List.mem_singleton]; exact Or.inr hq2⟩
  · rw [memIdxB_true_iff, memIdxB_true_iff, alookup_indexAdd_ne idx k q k2 hk]
    constructor
    · exact Or.inl
    · rintro (h | ⟨hk2, -⟩)
      · exact h
      · exact absurd hk2 hk

theorem indexAdd_keys (idx : List (String × List String)) (k q : String) :
    (indexAdd idx k q).map Prod.fst =
      if k ∈ idx.map Prod.fst then idx.map Prod.fst else idx.map Prod.fst ++ [k] := by
  induction idx with
  | nil => simp [indexAdd]
  | cons p t ih =>
    unfold indexAdd
    by_cases hp : p.1 = k
    · rw [if_pos hp]
      simp [hp]
    · rw [if_neg hp, List.map_cons, List.map_cons, ih]
      by_cases hk : k ∈ t.map Prod.fst
      · rw [if_pos hk, if_pos (by simp [hk])]
      · rw [if_neg hk, if_neg ?_, List.cons_append]
        simp only [List.mem_cons, not_or]
        exact ⟨fun hh => hp hh.symm, hk⟩

theorem indexAdd_keys_nodup {idx : List (String × List String)} (k q : String)
    (h : (idx.map Prod.fst).Nodup) : ((indexAdd idx k q).map Prod.fst).Nodup := by
  rw [indexAdd_keys]
  by_cases hk : k ∈ idx.map Prod.fst
  · rwa [if_pos hk]
  · rw [if_neg hk]
    refine h.append (List.nodup_singleton k) ?_
    intro x hx hxk
    rw [List.mem_singleton] at hxk
    subst hxk
    exact hk hx

theorem indexAdd_buckets {idx : List (String × List String)} {k q : String}
    {p : String × List String} (hp : p ∈ indexAdd idx k q) :
    p ∈ idx ∨ (∃ b, p.2 = (if q ∈ b then b else b ++ [q]) ∧ (p.1, b) ∈ idx) ∨ p.2 = [q] := by
  induction idx with
  | nil =>
    simp only [indexAdd, List.mem_singleton] at hp
    subst hp
    exact Or.inr (Or.inr rfl)
  | cons h2 t ih =>
    unfold indexAdd at hp
    by_cases hh : h2.1 = k
    · rw [if_pos hh] at hp
      rcases List.mem_cons.mp hp with rfl | hp
      · exact Or.inr (Or.inl ⟨h2.2, rfl, by rw [← hh]; exact List.mem_cons_self _ _⟩)
      · exact Or.inl (List.mem_cons_of_mem _ hp)
    · rw [if_neg hh] at hp
      rcases List.mem_cons.mp hp with rfl | hp
      · exact Or.inl (List.mem_cons_self _ _)
      · rcases ih hp with h | ⟨b, hb, hmem⟩ | h
        · exact Or.inl (List.mem_cons_of_mem _ h)
        · exact Or.inr (Or.inl ⟨b, hb, List.mem_cons_of_mem _ hmem⟩)
        · exact Or.inr (Or.inr h)

theorem indexAdd_bNodup {idx : List (String × List String)} (k q : String)
    (h : ∀ p ∈ idx, (Prod.snd p).Nodup) : ∀ p ∈ indexAdd idx k q, (Prod.snd p).Nodup := by
  intro p hp
  rcases indexAdd_buckets hp with hmem | ⟨b, hb, hmem⟩ | hnew
  · exact h p hmem
  · rw [hb]
    by_cases hq : q ∈ b
    · rw [if_pos hq]; exact h (p.1, b) hmem
    · rw [if_neg hq]
      refine (h (p.1, b) hmem).append (List.nodup_singleton q) ?_
      intro x hx hxq
      rw [List.mem_singleton] at hxq
      subst hxq
      exact hq hx
  · rw [hnew]; exact List.nodup_singleton q

theorem indexAdd_bNonempty {idx : List (String × List String)} (k q : String)
    (h : ∀ p ∈ idx, Prod.snd p ≠ []) : ∀ p ∈ indexAdd idx k q, Prod.snd p ≠ [] := by
  intro p hp
  rcases indexAdd_buckets hp with hmem | ⟨b, hb, hmem⟩ | hnew
  · exact h p hmem
  · rw [hb]
    by_cases hq : q ∈ b
    · rw [if_pos hq]; exact h (p.1, b) hmem
    · rw [if_neg hq]; simp
  · rw [hnew]; simp

/-! ## Removal lemmas -/

theorem alookup_removeQuery_ne (idx : List (String × List String)) (k query k2 : String)
    (h : ¬ (k2 = k)) : alookup k2 (removeQuery idx k query) = alookup k2 idx := by
  induction idx with
  | nil => rfl
  | cons p t ih =>
    unfold removeQuery
    by_cases hp : p.1 = k
    · rw [if_pos hp]
      by_cases hq : query ∈ p.2
      · rw [if_pos hq]
        have hne : ¬ (p.1 = k2) := by rw [hp]; exact fun hh => h hh.symm
        by_cases hb : p.2.filter (fun x => ¬ (x = query)) = []
        · rw [if_pos hb, alookup_cons, if_neg hne]
        · rw [if_neg hb, alookup_cons, alookup_cons, if_neg (by exact fun hh => h hh.symm),
            if_neg hne]
      · rw [if_neg hq]
    · rw [if_neg hp, alookup_cons, alookup_cons]
      by_cases hpk : p.1 = k2
      · rw [if_pos hpk, if_pos hpk]
      · rw [if_neg hpk, if_neg hpk, ih]

theorem removeQuery_of_not_mem {idx : List (String × List String)} {k : String}
    (query : String) (h : k ∉ idx.map Prod.fst) : removeQuery idx k query = idx := by
  induction idx with
  | nil => rfl
  | cons p t ih =>
    simp only [List.map_cons, List.mem_cons, not_or] at h
    unfold removeQuery
    rw [if_neg (fun hh => h.1 hh.symm), ih h.2]

theorem alookup_removeQuery_self_some {idx : List (String × List String)} {k : String}
    (query : String) {b : List String} (hn : (idx.map Prod.fst).Nodup)
    (hb : alookup k idx = some b) :
    alookup k (removeQuery idx k query) =
      if query ∈ b then
        (if b.filter (fun x => ¬ (x = query)) = [] then none
         else some (b.filter fun x => ¬ (x = query)))
      else some b := by
  induction idx with
  | nil => cases hb
  | cons p t ih =>
    rw [List.map_cons, List.nodup_cons] at hn
    rw [alookup_cons] at hb
    unfold removeQuery
    by_cases hp : p.1 = k
    · rw [if_pos hp] at hb ⊢
      rw [Option.some.injEq] at hb
      subst hb
      by_cases hq : query ∈ p.2
      · rw [if_pos hq, if_pos hq]
        by_cases he : p.2.filter (fun x => ¬ (x = query)) = []
        · rw [if_pos he, if_pos he]
          refine alookup_eq_none_of_not_mem ?_
          rw [← hp]
          exact hn.1
        · rw [if_neg he, if_neg he, alookup_cons, if_pos rfl]
      · rw [if_neg hq, if_neg hq, alookup_cons, if_pos hp]
    · rw [if_neg hp] at hb ⊢
      rw [alookup_cons, if_neg hp]
      exact ih hn.2 hb

theorem memIdxB_removeQuery {idx : List (String × List String)} (k query k2 q2 : String)
    (hn : (idx.map Prod.fst).Nodup) :
    memIdxB (removeQuery idx k query) k2 q2 = true ↔
      memIdxB idx k2 q2 = true ∧ ¬ (k2 = k ∧ q2 = query) := by
  by_cases hk : k2 = k
  · subst hk
    rw [memIdxB_true_iff, memIdxB_true_iff]
    cases hb : alookup k2 idx with
    | none =>
      have hnm : k2 ∉ idx.map Prod.fst := by
        intro hmem
        have := alookup_isSome_of_mem_keys hmem
        rw [hb] at this
        cases this
      rw [removeQuery_of_not_mem query hnm, hb]
      constructor
      · rintro ⟨b2, hb2, -⟩
        cases hb2
      · rintro ⟨⟨b2, hb2, -⟩, -⟩
        cases hb2
    | some b =>
      rw [alookup_removeQuery_self_some query hn hb]
      by_cases hq : query ∈ b
      · rw [if_pos hq]
        by_cases he : b.filter (fun x => ¬ (x = query)) = []
        · rw [if_pos he]
          constructor
          · rintro ⟨b2, hb2, -⟩
            cases hb2
          · rintro ⟨⟨b2, hb2, hm⟩, hnot⟩
            rw [Option.some.injEq] at hb2
            subst hb2
            exfalso
            have hq2 := List.eq_nil_iff_forall_not_mem.mp he q2
            have hq2q : q2 = query := by
              by_contra hne
              exact hq2 (List.mem_filter.mpr ⟨hm, by simp [hne]⟩)
            exact hnot ⟨rfl, hq2q⟩
        · rw [if_neg he]
          constructor
          · rintro ⟨b2, hb2, hm⟩
            rw [Option.some.injEq] at hb2
            subst hb2
            rw [List.mem_filter] at hm
            rcases hm with ⟨hmb, hne⟩
            simp only [decide_not, Bool.not_eq_eq_eq_not, Bool.not_true,
              decide_eq_false_iff_not] at hne
            exact ⟨⟨b, rfl, hmb⟩, fun hc => hne hc.2⟩
          · rintro ⟨⟨b2, hb2, hm⟩, hnot⟩
            rw [Option.some.injEq] at hb2
            subst hb2
            refine ⟨_, rfl, ?_⟩
            rw [List.mem_filter]
            refine ⟨hm, ?_⟩
            simp only [decide_not, Bool.not_eq_eq_eq_not, Bool.not_true,
              decide_eq_false_iff_not]
            exact fun hc => hnot ⟨rfl, hc⟩
      · rw [if_neg hq]
        constructor
        · rintro ⟨b2, hb2, hm⟩
          rw [Option.some.injEq] at hb2
          subst hb2
          refine ⟨⟨b, rfl, hm⟩, fun hc => ?_⟩
          rw [hc.2] at hm
          exact hq hm
        · rintro ⟨⟨b2, hb2, hm⟩, -⟩
          rw [Option.some.injEq] at hb2
          subst hb2
          exact ⟨b, rfl, hm⟩
  · rw [memIdxB_true_iff, memIdxB_true_iff, alookup_removeQuery_ne idx k query k2 hk]
    constructor
    · exact fun h => ⟨h, fun hc => hk hc.1⟩
    · exact fun h => h.1

theorem removeQuery_keys_sublist (idx : List (String × List String)) (k query : String) :
    List.Sublist ((removeQuery idx k query).map Prod.fst) (idx.map Prod.fst) := by
  induction idx with
  | nil => exact List.Sublist.refl _
  | cons p t ih =>
    unfold removeQuery
    by_cases hp : p.1 = k
    · rw [if_pos hp]
      by_cases hq : query ∈ p.2
      · rw [if_pos hq]
        by_cases hb : p.2.filter (fun x => ¬ (x = query)) = []
        · rw [if_pos hb, List.map_cons]
          exact (List.Sublist.refl _).cons _
        · rw [if_neg hb, List.map_cons, List.map_cons]
          rw [← hp]
      · rw [if_neg hq]
    · rw [if_neg hp, List.map_cons, List.map_cons]
      exact ih.cons₂ _

theorem removeQuery_keys_nodup {idx : List (String × List String)} (k query : String)
    (hn : (idx.map Prod.fst).Nodup) :
    ((removeQuery idx k query).map Prod.fst).Nodup :=
  hn.sublist (removeQuery_keys_sublist idx k query)

theorem removeQuery_buckets {idx : List (String × List String)} {k query : String}
    {p : String × List String} (hp : p ∈ removeQuery idx k query) :
    p ∈ idx ∨ ∃ b, p.2 = b.filter (fun x => ¬ (x = query)) ∧ (p.1, b) ∈ idx ∧ p.2 ≠ [] := by
  induction idx with
  | nil => cases hp
  | cons h2 t ih =>
    unfold removeQuery at hp
    by_cases hh : h2.1 = k
    · rw [if_pos hh] at hp
      by_cases hq : query ∈ h2.2
      · rw [if_pos hq] at hp
        by_cases hb : h2.2.filter (fun x => ¬ (x = query)) = []
        · rw [if_pos hb] at hp
          exact Or.inl (List.mem_cons_of_mem _ hp)
        · rw [if_neg hb] at hp
          rcases List.mem_cons.mp hp with rfl | hp
          · exact Or.inr ⟨h2.2, rfl, by rw [← hh]; exact List.mem_cons_self _ _, hb⟩
          · exact Or.inl (List.mem_cons_of_mem _ hp)
      · rw [if_neg hq] at hp
        exact Or.inl hp
    · rw [if_neg hh] at hp
      rcases List.mem_cons.mp hp with rfl | hp
      · exact Or.inl (List.mem_cons_self _ _)
      · rcases ih hp with h | ⟨b, hb, hmem, hne⟩
        · exact Or.inl (List.mem_cons_of_mem _ h)
        · exact Or.inr ⟨b, hb, List.mem_cons_of_mem _ hmem, hne⟩

theorem removeQuery_bNodup {idx : List (String × List String)} (k query : String)
    (h : ∀ p ∈ idx, (Prod.snd p).Nodup) :
    ∀ p ∈ removeQuery idx k query, (Prod.snd p).Nodup := by
  intro p hp
  rcases removeQuery_buckets hp with hmem | ⟨b, hb, hmem, -⟩
  · exact h p hmem
  · rw [hb]
    exact (h (p.1, b) hmem).filter _

theorem removeQuery_bNonempty {idx : List (String × List String)} (k query : String)
    (h : ∀ p ∈ idx, Prod.snd p ≠ []) :
    ∀ p ∈ removeQuery idx k query, Prod.snd p ≠ [] := by
  intro p hp
  rcases removeQuery_buckets hp with hmem | ⟨-, -, -, hne⟩
  · exact h p hmem
  · exact hne

/-! ## Fold lemmas for the index operations -/

theorem memIdxB_foldl_indexAdd (query : String) :
    ∀ (kws : List String) (idx : List (String × List String)) (k q : String),
      memIdxB (kws.foldl (fun idx k0 => indexAdd idx k0 query) idx) k q = true ↔
        memIdxB idx k q = true ∨ (k ∈ kws ∧ q = query) := by
  intro kws
  induction kws with
  | nil => simp
  | cons k0 rest ih =>
    intro idx k q
    rw [List.foldl_cons, ih, memIdxB_indexAdd]
    constructor
    · rintro ((h | ⟨hk, hq⟩) | ⟨hk, hq⟩)
      · exact Or.inl h
      · exact Or.inr ⟨by rw [hk]; exact List.mem_cons_self _ _, hq⟩
      · exact Or.inr ⟨List.mem_cons_of_mem _ hk, hq⟩
    · rintro (h | ⟨hk, hq⟩)
      · exact Or.inl (Or.inl h)
      · rcases List.mem_cons.mp hk with rfl | hk
        · exact Or.inl (Or.inr ⟨rfl, hq⟩)
        · exact Or.inr ⟨hk, hq⟩

theorem memIdxB_indexKeywords (segment : String → List String)
    (idx : List (String × List String)) (query k q : String) :
    memIdxB (indexKeywords segment idx query) k q = true ↔
      memIdxB idx k q = true ∨ (k ∈ extractKeywords segment query ∧ q = query) :=
  memIdxB_foldl_indexAdd query (extractKeywords segment query) idx k q

theorem foldl_indexAdd_keys_nodup (query : String) :
    ∀ (kws : List String) {idx : List (String × List String)},
      (idx.map Prod.fst).Nodup →
      (((kws.foldl (fun idx k0 => indexAdd idx k0 query) idx)).map Prod.fst).Nodup := by
  intro kws
  induction kws with
  | nil => exact fun {idx} h => h
  | cons k0 rest ih =>
    intro idx h
    rw [List.foldl_cons]
    exact ih (indexAdd_keys_nodup k0 query h)

theorem foldl_indexAdd_bNodup (query : String) :
    ∀ (kws : List String) {idx : List (String × List String)},
      (∀ p ∈ idx, (Prod.snd p).Nodup) →
      ∀ p ∈ kws.foldl (fun idx k0 => indexAdd idx k0 query) idx, (Prod.snd p).Nodup := by
  intro kws
  induction kws with
  | nil => exact fun {idx} h => h
  | cons k0 rest ih =>
    intro idx h
    rw [List.foldl_cons]
    exact ih (indexAdd_bNodup k0 query h)

theorem foldl_indexAdd_bNonempty (query : String) :
    ∀ (kws : List String) {idx : List (String × List String)},
      (∀ p ∈ idx, Prod.snd p ≠ []) →
      ∀ p ∈ kws.foldl (fun idx k0 => indexAdd idx k0 query) idx, Prod.snd p ≠ [] := by
  intro kws
  induction kws with
  | nil => exact fun {idx} h => h
  | cons k0 rest ih =>
    intro idx h
    rw [List.foldl_cons]
    exact ih (indexAdd_bNonempty k0 query h)

theorem memIdxB_foldl_removeQuery (key : String) :
    ∀ (kws : List String) (idx : List (String × List String)),
      (idx.map Prod.fst).Nodup → ∀ (k q : String),
      memIdxB (kws.foldl (fun idx k0 => removeQuery idx k0 key) idx) k q = true ↔
        memIdxB idx k q = true ∧ ¬ (k ∈ kws ∧ q = key) := by
  intro kws
  induction kws with
  | nil => simp
  | cons k0 rest ih =>
    intro idx hn k q
    rw [List.foldl_cons, ih _ (removeQuery_keys_nodup k0 key hn),
      memIdxB_removeQuery k0 key k q hn]
    constructor
    · rintro ⟨⟨h, hn1⟩, hn2⟩
      refine ⟨h, fun hc => ?_⟩
      rcases List.mem_cons.mp hc.1 with rfl | hk
      · exact hn1 ⟨rfl, hc.2⟩
      · exact hn2 ⟨hk, hc.2⟩
    · rintro ⟨h, hnot⟩
      exact ⟨⟨h, fun hc => hnot ⟨by rw [hc.1]; exact List.mem_cons_self _ _, hc.2⟩⟩,
        fun hc => hnot ⟨List.mem_cons_of_mem _ hc.1, hc.2⟩⟩

theorem memIdxB_removeFromIndex (segment : String → List String)
    {idx : List (String × List String)} (key : String)
    (hn : (idx.map Prod.fst).Nodup) (k q : String) :
    memIdxB (removeFromIndex segment idx key) k q = true ↔
      memIdxB idx k q = true ∧ ¬ (k ∈ extractKeywords segment key ∧ q = key) :=
  memIdxB_foldl_removeQuery key (extractKeywords segment key) idx hn k q

theorem foldl_removeQuery_keys_sublist (key : String) :
    ∀ (kws : List String) (idx : List (String × List String)),
      List.Sublist ((kws.foldl (fun idx k0 => removeQuery idx k0 key) idx).map Prod.fst)
        (idx.map Prod.fst) := by
  intro kws
  induction kws with
  | nil => exact fun idx => List.Sublist.refl _
  | cons k0 rest ih =>
    intro idx
    rw [List.foldl_cons]
    exact (ih _).trans (removeQuery_keys_sublist idx k0 key)

theorem removeFromIndex_keys_nodup (segment : String → List String)
    {idx : List (String × List String)} (key : String)
    (hn : (idx.map Prod.fst).Nodup) :
    ((removeFromIndex segment idx key).map Prod.fst).Nodup :=
  hn.sublist (foldl_removeQuery_keys_sublist key (extractKeywords segment key) idx)

theorem foldl_removeQuery_bNodup (key : String) :
    ∀ (kws : List String) {idx : List (String × List String)},
      (∀ p ∈ idx, (Prod.snd p).Nodup) →
      ∀ p ∈ kws.foldl (fun idx k0 => removeQuery idx k0 key) idx, (Prod.snd p).Nodup := by
  intro kws
  induction kws with
  | nil => exact fun {idx} h => h
  | cons k0 rest ih =>
    intro idx h
    rw [List.foldl_cons]
    exact ih (removeQuery_bNodup k0 key h)

theorem foldl_removeQuery_bNonempty (key : String) :
    ∀ (kws : List String) {idx : List (String × List String)},
      (∀ p ∈ idx, Prod.snd p ≠ []) →
      ∀ p ∈ kws.foldl (fun idx k0 => removeQuery idx k0 key) idx, Prod.snd p ≠ [] := by
  intro kws
  induction kws with
  | nil => exact fun {idx} h => h
  | cons k0 rest ih =>
    intro idx h
    rw [List.foldl_cons]
    exact ih (removeQuery_bNonempty k0 key h)

/-! ## The cache well-formedness invariant -/

/-- Well-formedness of an IntentCache state: exact-cache keys are unique
(it is a dict), index keys are unique (it is a dict), buckets are
duplicate-free (they are sets), no bucket is empty, and a query sits in
bucket k exactly when k is one of its extracted keywords and the query is
a current exact-cache key (the keyword-index invariant of the spec). -/
structure CacheWF (segment : String → List String) {α : Type}
    (c : IntentCache α) : Prop where
  keysNodup : (c.exact.map Prod.fst).Nodup
  idxNodup : (c.index.map Prod.fst).Nodup
  bNodup : ∀ p ∈ c.index, (Prod.snd p).Nodup
  bNonempty : ∀ p ∈ c.index, Prod.snd p ≠ []
  memIff : ∀ k q, memIdxB c.index k q = true ↔
    (k ∈ extractKeywords segment q ∧ q ∈ c.exact.map Prod.fst)

theorem CacheWF.evictKey (segment : String → List String) {α : Type}
    {c : IntentCache α} (h : CacheWF segment c) (key : String) :
    CacheWF segment (Assistant.evictKey segment c key) := by
  refine ⟨?_, ?_, ?_, ?_, ?_⟩
  · refine h.keysNodup.sublist ?_
    exact ((List.filter_sublist _).map Prod.fst)
  · exact removeFromIndex_keys_nodup segment key h.idxNodup
  · exact foldl_removeQuery_bNodup key _ h.bNodup
  · exact foldl_removeQuery_bNonempty key _ h.bNonempty
  · intro k q
    rw [show (Assistant.evictKey segment c key).index = removeFromIndex segment c.index key
        from rfl,
      memIdxB_removeFromIndex segment key h.idxNodup, h.memIff,
      show (Assistant.evictKey segment c key).exact
          = c.exact.filter (fun p => ¬ (p.1 = key)) from rfl,
      filter_keys_mem]
    constructor
    · rintro ⟨⟨hkw, hmem⟩, hnot⟩
      refine ⟨hkw, hmem, fun hqk => ?_⟩
      subst hqk
      exact hnot ⟨hkw, rfl⟩
    · rintro ⟨hkw, hmem, hne⟩
      exact ⟨⟨hkw, hmem⟩, fun hc => hne hc.2⟩

theorem CacheWF.evictFold (segment : String → List String) {α : Type} :
    ∀ (ks : List String) {c : IntentCache α}, CacheWF segment c →
      CacheWF segment (ks.foldl (Assistant.evictKey segment) c) := by
  intro ks
  induction ks with
  | nil => exact fun {c} h => h
  | cons k0 rest ih =>
    intro c h
    rw [List.foldl_cons]
    exact ih (h.evictKey segment k0)

theorem CacheWF.cleanup (segment : String → List String) {α : Type}
    {c : IntentCache α} (h : CacheWF segment c) :
    CacheWF segment (cleanupCache segment c) := by
  unfold cleanupCache
  by_cases hle : 2 * c.exact.length ≤ c.maxEntries
  · rwa [if_pos hle]
  · rw [if_neg hle]
    exact CacheWF.evictFold segment _ h

theorem CacheWF.add (segment : String → List String) {α : Type}
    {c : IntentCache α} (h : CacheWF segment c) (query : String) (v : α) :
    CacheWF segment (IntentCache.add segment c query v) := by
  unfold IntentCache.add
  have h1 : CacheWF segment
      (if c.maxEntries ≤ c.exact.length then cleanupCache segment c else c) := by
    by_cases hc : c.maxEntries ≤ c.exact.length
    · rw [if_pos hc]; exact h.cleanup segment
    · rw [if_neg hc]; exact h
  generalize hc1 : (if c.maxEntries ≤ c.exact.length then cleanupCache segment c else c) = c1
  rw [hc1] at h1
  refine ⟨?_, ?_, ?_, ?_, ?_⟩
  · exact assocInsert_keys_nodup query v h1.keysNodup
  · exact foldl_indexAdd_keys_nodup query _ h1.idxNodup
  · exact foldl_indexAdd_bNodup query _ h1.bNodup
  · exact foldl_indexAdd_bNonempty query _ h1.bNonempty
  · intro k q
    show memIdxB (indexKeywords segment c1.index query) k q = true ↔
      (k ∈ extractKeywords segment q ∧ q ∈ (assocInsert c1.exact query v).map Prod.fst)
    rw [memIdxB_indexKeywords segment c1.index query k q, h1.memIff,
      mem_assocInsert_keys c1.exact query v q]
    constructor
    · rintro (⟨hkw, hmem⟩ | ⟨hkw, hq⟩)
      · exact ⟨hkw, Or.inl hmem⟩
      · subst hq
        exact ⟨hkw, Or.inr rfl⟩
    · rintro ⟨hkw, hmem | hq⟩
      · exact Or.inl ⟨hkw, hmem⟩
      · exact Or.inr ⟨by rw [← hq]; exact hkw, hq⟩

theorem CacheWF.empty (segment : String → List String) (α : Type) (maxEntries : Nat) :
    CacheWF segment (emptyCache α maxEntries) := by
  refine ⟨List.nodup_nil, List.nodup_nil, ?_, ?_, ?_⟩
  · intro p hp; cases hp
  · intro p hp; cases hp
  · intro k q
    constructor
    · intro h; cases h
    · rintro ⟨-, hmem⟩; cases hmem

theorem memIdxB_loadIndex (segment : String → List String) {α : Type} :
    ∀ (loaded : List (String × α)) (idx : List (String × List String)) (k q : String),
      memIdxB (loaded.foldl (fun idx p => indexKeywords segment idx p.1) idx) k q = true ↔
        memIdxB idx k q = true ∨
          (k ∈ extractKeywords segment q ∧ q ∈ loaded.map Prod.fst) := by
  intro loaded
  induction loaded with
  | nil => simp
  | cons p rest ih =>
    intro idx k q
    rw [List.foldl_cons, ih, memIdxB_indexKeywords]
    constructor
    · rintro ((h | ⟨hkw, hq⟩) | ⟨hkw, hmem⟩)
      · exact Or.inl h
      · refine Or.inr ⟨by rw [hq]; exact hkw, ?_⟩
        rw [List.map_cons, hq]
        exact List.mem_cons_self _ _
      · exact Or.inr ⟨hkw, by rw [List.map_cons]; exact List.mem_cons_of_mem _ hmem⟩
    · rintro (h | ⟨hkw, hmem⟩)
      · exact Or.inl (Or.inl h)
      · rw [List.map_cons] at hmem
        rcases List.mem_cons.mp hmem with hq | hmem
        · exact Or.inl (Or.inr ⟨by rw [← hq]; exact hkw, hq⟩)
        · exact Or.inr ⟨hkw, hmem⟩

theorem loadIndex_keys_nodup (segment : String → List String) {α : Type} :
    ∀ (loaded : List (String × α)) {idx : List (String × List String)},
      (idx.map Prod.fst).Nodup →
      ((loaded.foldl (fun idx p => indexKeywords segment idx p.1) idx).map Prod.fst).Nodup := by
  intro loaded
  induction loaded with
  | nil => exact fun {idx} h => h
  | cons p rest ih =>
    intro idx h
    rw [List.foldl_cons]
    exact ih (foldl_indexAdd_keys_nodup p.1 _ h)

theorem loadIndex_bNodup (segment : String → List String) {α : Type} :
    ∀ (loaded : List (String × α)) {idx : List (String × List String)},
      (∀ p ∈ idx, (Prod.snd p).Nodup) →
      ∀ p2 ∈ loaded.foldl (fun idx p => indexKeywords segment idx p.1) idx,
        (Prod.snd p2).Nodup := by
  intro loaded
  induction loaded with
  | nil => exact fun {idx} h => h
  | cons p rest ih =>
    intro idx h
    rw [List.foldl_cons]
    exact ih (foldl_indexAdd_bNodup p.1 _ h)

theorem loadIndex_bNonempty (segment : String → List String) {α : Type} :
    ∀ (loaded : List (String × α)) {idx : List (String × List String)},
      (∀ p ∈ idx, Prod.snd p ≠ []) →
      ∀ p2 ∈ loaded.foldl (fun idx p => indexKeywords segment idx p.1) idx,
        Prod.snd p2 ≠ [] := by
  intro loaded
  induction loaded with
  | nil => exact fun {idx} h => h
  | cons p rest ih =>
    intro idx h
    rw [List.foldl_cons]
    exact ih (foldl_indexAdd_bNonempty p.1 _ h)

theorem CacheWF.load (segment : String → List String) {α : Type} (maxEntries : Nat)
    (loaded : List (String × α)) (hn : (loaded.map Prod.fst).Nodup) :
    CacheWF segment (loadCache segment maxEntries loaded) := by
  refine ⟨hn, ?_, ?_, ?_, ?_⟩
  · exact loadIndex_keys_nodup segment loaded List.nodup_nil
  · exact loadIndex_bNodup segment loaded (by intro p hp; cases hp)
  · exact loadIndex_bNonempty segment loaded (by intro p hp; cases hp)
  · intro k q
    rw [show (loadCache segment maxEntries loaded).index
        = loaded.foldl (fun idx p => indexKeywords segment idx p.1) [] from rfl,
      memIdxB_loadIndex segment loaded [] k q]
    constructor
    · rintro (h | h)
      · cases h
      · exact h
    · exact Or.inr

/-! ## Size and eviction lemmas -/

theorem evictKey_maxEntries (segment : String → List String) {α : Type}
    (c : IntentCache α) (key : String) :
    (evictKey segment c key).maxEntries = c.maxEntries := rfl

theorem evictFold_maxEntries (segment : String → List String) {α : Type} :
    ∀ (ks : List String) (c : IntentCache α),
      (ks.foldl (evictKey segment) c).maxEntries = c.maxEntries := by
  intro ks
  induction ks with
  | nil => exact fun c => rfl
  | cons k0 rest ih =>
    intro c
    rw [List.foldl_cons, ih]
    rfl

theorem cleanupCache_maxEntries (segment : String → List String) {α : Type}
    (c : IntentCache α) : (cleanupCache segment c).maxEntries = c.maxEntries := by
  unfold cleanupCache
  by_cases hle : 2 * c.exact.length ≤ c.maxEntries
  · rw [if_pos hle]
  · rw [if_neg hle]
    exact evictFold_maxEntries segment _ c

theorem add_maxEntries (segment : String → List String) {α : Type}
    (c : IntentCache α) (query : String) (v : α) :
    (IntentCache.add segment c query v).maxEntries = c.maxEntries := by
  unfold IntentCache.add
  by_cases hc : c.maxEntries ≤ c.exact.length
  · rw [if_pos hc]
    exact cleanupCache_maxEntries segment c
  · rw [if_neg hc]

theorem evictFold_exact (segment : String → List String) {α : Type} :
    ∀ (ks : List String) (c : IntentCache α),
      (ks.foldl (evictKey segment) c).exact =
        ks.foldl (fun l key => l.filter fun p => ¬ (p.1 = key)) c.exact := by
  intro ks
  induction ks with
  | nil => exact fun c => rfl
  | cons k0 rest ih =>
    intro c
    rw [List.foldl_cons, List.foldl_cons, ih]
    rfl

theorem filter_foldl_take_drop {α : Type} :
    ∀ (n : Nat) (l : List (String × α)), (l.map Prod.fst).Nodup →
      ((l.take n).map Prod.fst).foldl (fun l2 key => l2.filter fun p => ¬ (p.1 = key)) l
        = l.drop n := by
  intro n
  induction n with
  | zero => intro l _; rfl
  | succ m ih =>
    intro l hn
    cases l with
    | nil => rfl
    | cons p t =>
      rw [List.map_cons, List.nodup_cons] at hn
      rw [List.take_succ_cons, List.map_cons, List.foldl_cons]
      have hfilter : (p :: t).filter (fun p2 => ¬ (p2.1 = p.1)) = t := by
        rw [List.filter_cons]
        have : ¬ (decide ¬ (p.1 = p.1)) = true := by simp
        rw [if_neg this]
        refine List.filter_eq_self.mpr ?_
        intro p2 hp2
        simp only [decide_not, Bool.not_eq_eq_eq_not, Bool.not_true,
          decide_eq_false_iff_not]
        intro hc
        exact hn.1 (by rw [← hc]; exact List.mem_map_of_mem Prod.fst hp2)
      rw [hfilter, List.drop_succ_cons]
      exact ih t hn.2

theorem cleanupCache_exact {segment : String → List String} {α : Type}
    {c : IntentCache α} (hn : (c.exact.map Prod.fst).Nodup)
    (hgt : ¬ 2 * c.exact.length ≤ c.maxEntries) :
    (cleanupCache segment c).exact = c.exact.drop (c.exact.length / 4) := by
  unfold cleanupCache
  rw [if_neg hgt]
  show (((c.exact.map Prod.fst).take (c.exact.length / 4)).foldl
      (evictKey segment) c).exact = _
  rw [evictFold_exact, ← List.map_take]
  exact filter_foldl_take_drop (c.exact.length / 4) c.exact hn

theorem add_exact_no_cleanup {segment : String → List String} {α : Type}
    {c : IntentCache α} {query : String} (v : α)
    (hlt : c.exact.length < c.maxEntries) (hq : query ∉ c.exact.map Prod.fst) :
    (IntentCache.add segment c query v).exact = c.exact ++ [(query, v)] := by
  unfold IntentCache.add
  rw [if_neg (by omega)]
  show assocInsert c.exact query v = _
  unfold assocInsert
  rw [if_neg hq]

theorem add_fill (segment : String → List String) {α : Type} :
    ∀ (entries : List (String × α)) (c : IntentCache α),
      ((c.exact ++ entries).map Prod.fst).Nodup →
      c.exact.length + entries.length ≤ c.maxEntries →
      (entries.foldl (fun c2 p => IntentCache.add segment c2 p.1 p.2) c).exact
          = c.exact ++ entries
      ∧ (entries.foldl (fun c2 p => IntentCache.add segment c2 p.1 p.2) c).maxEntries
          = c.maxEntries := by
  intro entries
  induction entries with
  | nil =>
    intro c _ _
    exact ⟨(List.append_nil c.exact).symm, rfl⟩
  | cons p rest ih =>
    intro c hn hlen
    rw [List.foldl_cons]
    have hq : p.1 ∉ c.exact.map Prod.fst := by
      rw [List.map_append] at hn
      intro hmem
      exact (List.disjoint_of_nodup_append hn) hmem
        (by rw [List.map_cons]; exact List.mem_cons_self _ _)
    have hlt : c.exact.length < c.maxEntries := by
      rw [List.length_cons] at hlen
      omega
    have hexact := @add_exact_no_cleanup segment _ c p.1 p.2 hlt hq
    have hmax := add_maxEntries segment c p.1 p.2
    have hstep : (IntentCache.add segment c p.1 p.2).exact = c.exact ++ [p] := by
      rw [hexact]
    rcases ih (IntentCache.add segment c p.1 p.2)
        (by rw [hstep, List.append_assoc]
            simpa using hn)
        (by rw [hstep, List.length_append, List.length_cons, List.length_nil, hmax]
            rw [List.length_cons] at hlen
            omega) with ⟨h1, h2⟩
    refine ⟨?_, by rw [h2, hmax]⟩
    rw [h1, hstep, List.append_assoc]
    rfl

theorem add_overflow {segment : String → List String} {α : Type}
    {c : IntentCache α} {query : String} (v : α)
    (hn : (c.exact.map Prod.fst).Nodup)
    (hlen : c.exact.length = c.maxEntries) (hmax : 1 ≤ c.maxEntries)
    (hq : query ∉ c.exact.map Prod.fst) :
    (IntentCache.add segment c query v).exact
      = c.exact.drop (c.maxEntries / 4) ++ [(query, v)] := by
  unfold IntentCache.add
  rw [if_pos (le_of_eq hlen.symm)]
  have hgt : ¬ 2 * c.exact.length ≤ c.maxEntries := by omega
  show assocInsert (cleanupCache segment c).exact query v = _
  rw [cleanupCache_exact hn hgt, hlen]
  unfold assocInsert
  rw [if_neg ?_]
  intro hmem
  refine hq ?_
  have : List.Sublist (c.exact.drop (c.maxEntries / 4)) c.exact := List.drop_sublist _ _
  rw [List.mem_map] at hmem
  rcases hmem with ⟨p2, hp2, hfst⟩
  rw [List.mem_map]
  exact ⟨p2, this.mem hp2, hfst⟩

/-! ## Capacity bound -/

theorem assocInsert_length_le {α : Type} (l : List (String × α)) (q : String) (v : α) :
    (assocInsert l q v).length ≤ l.length + 1 := by
  by_cases h : q ∈ l.map Prod.fst
  · rw [assocInsert_length_of_mem v h]
    omega
  · rw [assocInsert_length_of_not_mem v h]

theorem add_length_le {segment : String → List String} {α : Type}
    {c : IntentCache α} (q : String) (v : α) (hmax : 4 ≤ c.maxEntries)
    (hn : (c.exact.map Prod.fst).Nodup) (h : c.exact.length ≤ c.maxEntries) :
    (IntentCache.add segment c q v).exact.length ≤ c.maxEntries := by
  unfold IntentCache.add
  by_cases hc : c.maxEntries ≤ c.exact.length
  · rw [if_pos hc]
    have hlen : c.exact.length = c.maxEntries := le_antisymm h hc
    have hgt : ¬ 2 * c.exact.length ≤ c.maxEntries := by omega
    show (assocInsert (cleanupCache segment c).exact q v).length ≤ c.maxEntries
    calc (assocInsert (cleanupCache segment c).exact q v).length
        ≤ (cleanupCache segment c).exact.length + 1 := assocInsert_length_le _ q v
      _ = (c.exact.drop (c.exact.length / 4)).length + 1 := by
          rw [cleanupCache_exact hn hgt]
      _ = c.exact.length - c.exact.length / 4 + 1 := by rw [List.length_drop]
      _ ≤ c.maxEntries := by omega
  · rw [if_neg hc]
    show (assocInsert c.exact q v).length ≤ c.maxEntries
    calc (assocInsert c.exact q v).length ≤ c.exact.length + 1 :=
          assocInsert_length_le _ q v
      _ ≤ c.maxEntries := by omega

theorem addAll_length_le (segment : String → List String) {α : Type} :
    ∀ (entries : List (String × α)) (c : IntentCache α), CacheWF segment c →
      4 ≤ c.maxEntries → c.exact.length ≤ c.maxEntries →
      (entries.foldl (fun c2 p => IntentCache.add segment c2 p.1 p.2) c).exact.length
        ≤ c.maxEntries := by
  intro entries
  induction entries with
  | nil => exact fun c _ _ h => h
  | cons p rest ih =>
    intro c hwf hmax h
    rw [List.foldl_cons]
    have hmax2 := add_maxEntries segment c p.1 p.2
    have := ih (IntentCache.add segment c p.1 p.2) (hwf.add segment p.1 p.2)
      (by omega) (by rw [hmax2]; exact add_length_le p.1 p.2 hmax hwf.keysNodup h)
    rwa [hmax2] at this

/-! ## Best-match fold lemmas -/

/-- The loop body of IntentCache._find_best_match. -/
def bestStep (segment : String → List String) (qset : List String)
    (best : String × ℚ) (c : String × Nat) : String × ℚ :=
  let s := candidateSim segment qset c.1
  if best.2 < s then (c.1, s) else best

theorem findBestMatch_eq_foldl (segment : String → List String)
    (queryKeywords : List String) (cands : List (String × Nat)) :
    findBestMatch segment queryKeywords cands
      = cands.foldl (bestStep segment queryKeywords.dedup) ("", 0) := rfl

theorem bestFold_spec (segment : String → List String) (qset : List String) :
    ∀ (cands : List (String × Nat)) (init : String × ℚ),
      init.2 ≤ (cands.foldl (bestStep segment qset) init).2
      ∧ (∀ c2 ∈ cands, candidateSim segment qset c2.1
          ≤ (cands.foldl (bestStep segment qset) init).2)
      ∧ (cands.foldl (bestStep segment qset) init = init
         ∨ (init.2 < (cands.foldl (bestStep segment qset) init).2
            ∧ ((cands.find? fun c2 => candidateSim segment qset c2.1
                  = (cands.foldl (bestStep segment qset) init).2).map Prod.fst
                = some (cands.foldl (bestStep segment qset) init).1))) := by
  intro cands
  induction cands with
  | nil =>
    intro init
    refine ⟨le_refl _, ?_, Or.inl rfl⟩
    intro c2 hc2
    cases hc2
  | cons c cs ih =>
    intro init
    rw [List.foldl_cons]
    by_cases hlt : init.2 < candidateSim segment qset c.1
    · have hstep : bestStep segment qset init c = (c.1, candidateSim segment qset c.1) := by
        unfold bestStep
        rw [if_pos hlt]
      rw [hstep]
      rcases ih (c.1, candidateSim segment qset c.1) with ⟨h1, h2, h3⟩
      refine ⟨le_of_lt (lt_of_lt_of_le hlt h1), ?_, ?_⟩
      · intro c2 hc2
        rcases List.mem_cons.mp hc2 with rfl | hc2
        · exact h1
        · exact h2 c2 hc2
      · rcases h3 with h3 | ⟨h3a, h3b⟩
        · refine Or.inr ⟨by rw [h3]; exact hlt, ?_⟩
          rw [h3]
          rw [List.find?_cons_of_pos _ (by simp)]
          rfl
        · refine Or.inr ⟨lt_trans hlt h3a, ?_⟩
          rw [List.find?_cons_of_neg _ ?_, h3b]
          simp only [decide_eq_true_eq]
          exact ne_of_lt h3a
    · have hstep : bestStep segment qset init c = init := by
        unfold bestStep
        rw [if_neg hlt]
      rw [hstep]
      rcases ih init with ⟨h1, h2, h3⟩
      refine ⟨h1, ?_, ?_⟩
      · intro c2 hc2
        rcases List.mem_cons.mp hc2 with rfl | hc2
        · exact le_trans (le_of_not_lt hlt) h1
        · exact h2 c2 hc2
      · rcases h3 with h3 | ⟨h3a, h3b⟩
        · exact Or.inl h3
        · refine Or.inr ⟨h3a, ?_⟩
          rw [List.find?_cons_of_neg _ ?_, h3b]
          simp only [decide_eq_true_eq]
          intro hc
          rw [hc] at hlt
          exact hlt h3a

/-! ## Jaccard similarity: the computed formula equals the spec formula -/

theorem candidateSim_eq_jaccardSpec (segment : String → List String)
    (qkws : List String) (cand : String) :
    candidateSim segment qkws.dedup cand
      = jaccardSpec qkws (extractKeywords segment cand) := by
  simp only [candidateSim, jaccardSpec]
  set B := extractKeywords segment cand with hB
  have hfilter_nodup : (qkws.dedup.filter fun w => w ∈ B.dedup).Nodup :=
    qkws.nodup_dedup.filter _
  have hinter : (qkws.dedup.filter fun w => w ∈ B.dedup).toFinset
      = qkws.toFinset ∩ B.toFinset := by
    ext x
    simp [List.mem_filter, List.mem_dedup, List.mem_toFinset]
  have hover : (qkws.dedup.filter fun w => w ∈ B.dedup).length
      = (qkws.toFinset ∩ B.toFinset).card := by
    rw [← hinter, List.toFinset_card_of_nodup hfilter_nodup]
  have hq : qkws.dedup.length = qkws.toFinset.card := (List.card_toFinset qkws).symm
  have hb : B.dedup.length = B.toFinset.card := (List.card_toFinset B).symm
  have hcard : (qkws.toFinset ∪ B.toFinset).card + (qkws.toFinset ∩ B.toFinset).card
      = qkws.toFinset.card + B.toFinset.card :=
    Finset.card_union_add_card_inter _ _
  have hinter_le : (qkws.toFinset ∩ B.toFinset).card ≤ qkws.toFinset.card :=
    Finset.card_le_card (Finset.inter_subset_left)
  have hinter_le2 : (qkws.toFinset ∩ B.toFinset).card ≤ B.toFinset.card :=
    Finset.card_le_card (Finset.inter_subset_right)
  rw [hover, hq, hb]
  by_cases hd : 0 < qkws.toFinset.card + B.toFinset.card
      - (qkws.toFinset ∩ B.toFinset).card
  · rw [if_pos hd]
    have hu : (qkws.toFinset ∪ B.toFinset).card
        = qkws.toFinset.card + B.toFinset.card - (qkws.toFinset ∩ B.toFinset).card := by
      omega
    rw [hu, Rat.mkRat_eq_div]
    push_cast [Int.cast_natCast]
    rfl
  · rw [if_neg hd]
    have hu : (qkws.toFinset ∪ B.toFinset).card = 0 := by omega
    have hi : (qkws.toFinset ∩ B.toFinset).card = 0 := by omega
    rw [hu, hi]
    simp

/-! ## Lookup lemmas -/

theorem lookup_exact_hit (segment : String → List String) {α : Type}
    (c : IntentCache α) (q : String) (thr : ℚ) {v : α}
    (h : alookup q c.exact = some v) :
    IntentCache.lookup segment c q thr = some v := by
  unfold IntentCache.lookup
  rw [h]

theorem add_exact_eq (segment : String → List String) {α : Type}
    (c : IntentCache α) (q : String) (v : α) :
    (IntentCache.add segment c q v).exact
      = assocInsert (if c.maxEntries ≤ c.exact.length
          then cleanupCache segment c else c).exact q v := rfl

theorem lookup_after_add (segment : String → List String) {α : Type}
    (c : IntentCache α) (q : String) (v : α) (thr : ℚ) :
    IntentCache.lookup segment (IntentCache.add segment c q v) q thr = some v := by
  refine lookup_exact_hit segment _ q thr ?_
  rw [add_exact_eq]
  exact alookup_assocInsert_self _ q v

theorem findCandidates_nil_index (kws : List String) :
    findCandidates [] kws = [] := by
  unfold findCandidates
  induction kws with
  | nil => rfl
  | cons k rest ih => exact ih

theorem lookup_miss_empty (segment : String → List String) (α : Type)
    (maxEntries : Nat) (q : String) (thr : ℚ) :
    IntentCache.lookup segment (emptyCache α maxEntries) q thr = none := by
  unfold IntentCache.lookup
  show (match (none : Option α) with
    | some v => some v
    | none =>
      let kws := extractKeywords segment q
      if kws = [] then none
      else
        let cands := findCandidates (emptyCache α maxEntries).index kws
        if cands = [] then none
        else
          let bm := findBestMatch segment kws cands
          if thr ≤ bm.2 then alookup bm.1 (emptyCache α maxEntries).exact else none) = none
  show (let kws := extractKeywords segment q
    if kws = [] then none
    else
      let cands := findCandidates (emptyCache α maxEntries).index kws
      if cands = [] then none
      else
        let bm := findBestMatch segment kws cands
        if thr ≤ bm.2 then alookup bm.1 (emptyCache α maxEntries).exact else none) = none
  by_cases hkw : extractKeywords segment q = []
  · simp only [hkw, if_pos]
  · simp only [hkw, if_neg]
    rw [show (emptyCache α maxEntries).index = [] from rfl, findCandidates_nil_index]
    simp

theorem lookup_fuzzy_eq (segment : String → List String) {α : Type}
    (c : IntentCache α) (q : String) (thr : ℚ)
    (hq : alookup q c.exact = none)
    (hkw : extractKeywords segment q ≠ [])
    (hc : findCandidates c.index (extractKeywords segment q) ≠ []) :
    IntentCache.lookup segment c q thr =
      if thr ≤ (findBestMatch segment (extractKeywords segment q)
          (findCandidates c.index (extractKeywords segment q))).2
      then alookup (findBestMatch segment (extractKeywords segment q)
          (findCandidates c.index (extractKeywords segment q))).1 c.exact
      else none := by
  unfold IntentCache.lookup
  rw [hq]
  simp only [hkw, if_neg, hc]
  rfl

theorem CacheWF.addAll (segment : String → List String) {α : Type} :
    ∀ (ops : List (String × α)) {c : IntentCache α}, CacheWF segment c →
      CacheWF segment
        (ops.foldl (fun c2 p => IntentCache.add segment c2 p.1 p.2) c) := by
  intro ops
  induction ops with
  | nil => exact fun {c} h => h
  | cons p rest ih =>
    intro c h
    rw [List.foldl_cons]
    exact ih (h.add segment p.1 p.2)

/-! ## Scenario definitions used by the claim theorems -/

/-- The end-to-end query of the spec scenario. -/
def weatherQuery : String := "重庆明天天气怎么样"

/-- What _apply_rules produces for weatherQuery: one weather keyword
(天气) matches, so TOOL_SPECIFIC at the base confidence 0.7, no
entities. -/
def ruleWeatherIntent : Intent :=
  { type := .TOOL_SPECIFIC, confidence := mkRat 7 10, tool_name := some "weather"
  , entities := [], raw_query := weatherQuery }

/-- The rule-derived intent of the spec's merge tie-break example. -/
def mergeRuleExample : Intent :=
  { type := .TOOL_SPECIFIC, confidence := mkRat 7 10, tool_name := some "weather"
  , entities := [], raw_query := weatherQuery }

/-- The model-derived intent of the spec's merge tie-break example. -/
def mergeModelExample : Intent :=
  { type := .CHAT, confidence := mkRat 7 10, tool_name := none
  , entities := [], raw_query := weatherQuery }

/-- A segmenter producing no tokens; with an empty cache, lookup misses
regardless of segmentation. -/
def segNone : String → List String := fun _ => []

/-! ## C1: merge kind selection and the tie-break -/

/-- C1 counterexample: merging the claim's example intents (rule
TOOL_SPECIFIC at 0.7 with tool weather, model CHAT at 0.7 with no tool)
yields kind CHAT, not TOOL_SPECIFIC: on a confidence tie the source's
strict comparison picks the model-derived kind. The tool is still
weather. -/
theorem claim1_counterexample :
    mergeIntents mergeRuleExample mergeModelExample
      = { type := .CHAT, confidence := mkRat 7 10, tool_name := some "weather"
        , entities := [], raw_query := weatherQuery }
    ∧ ¬ (IntentType.CHAT = IntentType.TOOL_SPECIFIC) := by
  constructor
  · decide
  · decide

/-- C1 (amended): the merged kind is the kind of the source whose
confidence is strictly greater, and on ties the model-derived kind is
chosen (the source computes rule.type only when rule.confidence is
strictly greater); on the spec's tie example the result is kind CHAT with
tool weather. -/
theorem claim1_merge_kind (r m : Intent) :
    (m.confidence < r.confidence → (mergeIntents r m).type = r.type)
    ∧ (r.confidence ≤ m.confidence → (mergeIntents r m).type = m.type)
    ∧ mergeIntents mergeRuleExample mergeModelExample
        = { type := .CHAT, confidence := mkRat 7 10, tool_name := some "weather"
          , entities := [], raw_query := weatherQuery } := by
  refine ⟨?_, ?_, by decide⟩
  · intro h
    show (if m.confidence < r.confidence then r.type else m.type) = r.type
    rw [if_pos h]
  · intro h
    show (if m.confidence < r.confidence then r.type else m.type) = m.type
    rw [if_neg (not_lt.mpr h)]

/-- C1 witness: the amended theorem applied at concrete intents on both
sides of the comparison. -/
theorem claim1_witness :
    (mergeIntents
        { type := .TOOL_SPECIFIC, confidence := mkRat 9 10, tool_name := none
        , entities := [], raw_query := "w" }
        { type := .CHAT, confidence := mkRat 3 10, tool_name := none
        , entities := [], raw_query := "w" }).type = IntentType.TOOL_SPECIFIC
    ∧ (mergeIntents
        { type := .TOOL_SPECIFIC, confidence := mkRat 7 10, tool_name := none
        , entities := [], raw_query := "w" }
        { type := .CHAT, confidence := mkRat 7 10, tool_name := none
        , entities := [], raw_query := "w" }).type = IntentType.CHAT :=
  ⟨(claim1_merge_kind _ _).1 (by decide), (claim1_merge_kind _ _).2.1 (by decide)⟩

/-! ## C2: model-analyzer fallbacks -/

/-- C2 counterexample: on a transport error (any exception in the try
block) the analyzer returns kind CHAT at 0.3, not UNKNOWN as the claim
states. -/
theorem claim2_counterexample :
    analyzeWithModel .raised "你好"
      = { type := .CHAT, confidence := mkRat 3 10, tool_name := none
        , entities := [], raw_query := "你好" }
    ∧ ¬ (IntentType.CHAT = IntentType.UNKNOWN) := by
  constructor
  · decide
  · decide

/-- C2 (amended): for every input, a response with no parseable JSON
yields an UNKNOWN intent at confidence 0.3, while a transport error (or
any other exception in the try block) yields a CHAT intent at confidence
0.3; analyzeWithModel is a total function, so neither case propagates an
exception past the analyzer boundary. -/
theorem claim2_model_fallbacks (input : String) :
    analyzeWithModel .noJson input
      = { type := .UNKNOWN, confidence := mkRat 3 10, tool_name := none
        , entities := [], raw_query := input }
    ∧ analyzeWithModel .raised input
      = { type := .CHAT, confidence := mkRat 3 10, tool_name := none
        , entities := [], raw_query := input } :=
  ⟨rfl, rfl⟩

/-! ## C3: the end-to-end weather scenario -/

/-- C3 counterexample: on the query 重庆明天天气怎么样 with an empty
cache, recognition takes the merged path (the RecognizeResult.merged
constructor records that the model analyzer was invoked): the rule
confidence is exactly 0.7 and the shortcut requires strictly more than
0.8, so the claim's assertion that the model is not invoked fails. -/
theorem claim3_counterexample :
    (recognize segNone (emptyCache IntentDict 1000) weatherQuery .noJson).1
      = .merged (mergeIntents ruleWeatherIntent (analyzeWithModel .noJson weatherQuery))
    ∧ ¬ ∃ i, (recognize segNone (emptyCache IntentDict 1000) weatherQuery .noJson).1
        = RecognizeResult.ruleShortcut i := by
  have h : (recognize segNone (emptyCache IntentDict 1000) weatherQuery .noJson).1
      = .merged (mergeIntents ruleWeatherIntent (analyzeWithModel .noJson weatherQuery)) := by
    decide
  refine ⟨h, ?_⟩
  rintro ⟨i, hi⟩
  rw [h] at hi
  cases hi

/-- C3 (amended): for the query 重庆明天天气怎么样 with an empty cache,
the rule engine matches the weather keyword and produces the intent
{TOOL_SPECIFIC, confidence 0.7, tool weather}; since 0.7 does not exceed
the 0.8 shortcut threshold, recognition invokes the model and merges; the
merged confidence is at least 0.7, the merged tool is weather whenever
the model names no tool, and the weather parameter mapping sends the
location 重庆 to the canonical code Chongqing. -/
theorem claim3_weather_pipeline (segment : String → List String)
    (outcome : ModelOutcome) :
    applyRules weatherQuery = some ruleWeatherIntent
    ∧ IntentCache.lookup segment (emptyCache IntentDict 1000) weatherQuery
        (mkRat 7 10) = none
    ∧ (recognize segment (emptyCache IntentDict 1000) weatherQuery outcome).1
        = .merged (mergeIntents ruleWeatherIntent (analyzeWithModel outcome weatherQuery))
    ∧ mkRat 7 10
        ≤ (mergeIntents ruleWeatherIntent (analyzeWithModel outcome weatherQuery)).confidence
    ∧ ((analyzeWithModel outcome weatherQuery).tool_name = none →
        (mergeIntents ruleWeatherIntent
          (analyzeWithModel outcome weatherQuery)).tool_name = some "weather")
    ∧ mapWeatherCity ruleWeatherIntent [("location", "重庆")] none = "Chongqing" := by
  have happ : applyRules weatherQuery = some ruleWeatherIntent := by decide
  have hlook := lookup_miss_empty segment IntentDict 1000 weatherQuery (mkRat 7 10)
  refine ⟨happ, hlook, ?_, ?_, ?_, by decide⟩
  · unfold recognize
    rw [hlook, happ]
    rfl
  · exact le_max_left _ _
  · intro h
    show (if pyTruthy ruleWeatherIntent.tool_name
            && pyTruthy (analyzeWithModel outcome weatherQuery).tool_name then
            (if mkRat 7 10 < ruleWeatherIntent.confidence
             then ruleWeatherIntent.tool_name
             else (analyzeWithModel outcome weatherQuery).tool_name)
          else pyOrStr ruleWeatherIntent.tool_name
            (analyzeWithModel outcome weatherQuery).tool_name) = some "weather"
    rw [h]
    decide

/-- C3 witness: the amended theorem applied at a concrete segmenter and
model outcome, with the model naming no tool. -/
theorem claim3_witness :
    (analyzeWithModel .noJson weatherQuery).tool_name = none
    ∧ (mergeIntents ruleWeatherIntent
        (analyzeWithModel .noJson weatherQuery)).tool_name = some "weather" :=
  ⟨by decide, (claim3_weather_pipeline segNone .noJson).2.2.2.2.1 (by decide)⟩

/-! ## C4: capacity and eviction bound -/

/-- Eleven distinct queries for the eviction counterexample. -/
def entries11 : List (String × Nat) :=
  [("a0", 0), ("a1", 0), ("a2", 0), ("a3", 0), ("a4", 0), ("a5", 0)
  , ("a6", 0), ("a7", 0), ("a8", 0), ("a9", 0), ("a10", 0)]

/-- C4 counterexample: with maxEntries = 10, inserting 11 distinct queries
leaves 9 entries (cleanup removes int(10 * 0.25) = 2, then one is
inserted), and 9 exceeds the claimed bound 0.75 * 10 + 1 = 8.5. -/
theorem claim4_counterexample :
    (entries11.foldl (fun c2 p => IntentCache.add segNone c2 p.1 p.2)
        (emptyCache Nat 10)).exact.length = 9
    ∧ ¬ ((9 : ℚ) ≤ 3/4 * 10 + 1) := by
  constructor
  · decide
  · norm_num

/-- C4 (amended): for any capacity maxE of at least 4, the cache size
never exceeds maxE over any sequence of adds starting empty; cleanup
removes int(size * 0.25) = floor(size/4) oldest entries, so after
inserting maxE + 1 distinct queries the size is exactly
maxE - floor(maxE/4) + 1 (which is at most 0.75 * maxE + 1 exactly when 4
divides maxE); and no keyword-index bucket references an evicted query:
every bucketed query is still an exact-cache key. -/
theorem claim4_eviction_bound (segment : String → List String) {α : Type}
    (maxE : Nat) (hmax : 4 ≤ maxE) (entries : List (String × α))
    (hn : (entries.map Prod.fst).Nodup) (hlen : entries.length = maxE + 1) :
    (∀ es : List (String × α),
      (es.foldl (fun c2 p => IntentCache.add segment c2 p.1 p.2)
          (emptyCache α maxE)).exact.length ≤ maxE)
    ∧ (entries.foldl (fun c2 p => IntentCache.add segment c2 p.1 p.2)
        (emptyCache α maxE)).exact.length = maxE - maxE / 4 + 1
    ∧ (entries.foldl (fun c2 p => IntentCache.add segment c2 p.1 p.2)
        (emptyCache α maxE)).exact.length ≤ maxE
    ∧ (∀ k q, memIdxB (entries.foldl (fun c2 p => IntentCache.add segment c2 p.1 p.2)
          (emptyCache α maxE)).index k q = true →
        q ∈ (entries.foldl (fun c2 p => IntentCache.add segment c2 p.1 p.2)
          (emptyCache α maxE)).exact.map Prod.fst) := by
  have hwf0 : CacheWF segment (emptyCache α maxE) := CacheWF.empty segment α maxE
  -- split the entries into the first maxE (the fill phase) and the final one
  have hdlen : (entries.drop maxE).length = 1 := by
    rw [List.length_drop, hlen]
    omega
  obtain ⟨p, hp⟩ := List.length_eq_one.mp hdlen
  have hsplit : entries = entries.take maxE ++ [p] := by
    rw [← hp]
    exact (List.take_append_drop _ _).symm
  have htlen : (entries.take maxE).length = maxE := by
    rw [List.length_take, hlen]
    omega
  have hkeys : ((entries.take maxE).map Prod.fst ++ [p.1]).Nodup := by
    have : (entries.take maxE ++ [p]).map Prod.fst =
        (entries.take maxE).map Prod.fst ++ [p.1] := by
      rw [List.map_append]
      rfl
    rw [← this, ← hsplit]
    exact hn
  have hkeysA : ((entries.take maxE).map Prod.fst).Nodup :=
    (List.nodup_append.mp hkeys).1
  have hfill := add_fill segment (entries.take maxE) (emptyCache α maxE)
    (by
      show (([] ++ entries.take maxE).map Prod.fst).Nodup
      rw [List.nil_append]
      exact hkeysA)
    (by
      show ([] : List (String × α)).length + (entries.take maxE).length ≤ maxE
      rw [htlen]
      simp)
  set c1 := (entries.take maxE).foldl
    (fun c2 p2 => IntentCache.add segment c2 p2.1 p2.2) (emptyCache α maxE) with hc1
  have hc1exact : c1.exact = entries.take maxE := by
    rw [hfill.1]
    simp [emptyCache]
  have hc1max : c1.maxEntries = maxE := hfill.2
  have hc1nodup : (c1.exact.map Prod.fst).Nodup := by
    rw [hc1exact]
    exact hkeysA
  have hc1len : c1.exact.length = c1.maxEntries := by
    rw [hc1exact, htlen, hc1max]
  have hpnot : p.1 ∉ c1.exact.map Prod.fst := by
    rw [hc1exact]
    intro hmem
    exact (List.disjoint_of_nodup_append hkeys) hmem (List.mem_singleton_self _)
  have hover := @add_overflow segment _ c1 p.1 p.2 hc1nodup hc1len
    (by omega) hpnot
  have hfold : entries.foldl (fun c2 p2 => IntentCache.add segment c2 p2.1 p2.2)
      (emptyCache α maxE) = IntentCache.add segment c1 p.1 p.2 := by
    conv_lhs => rw [hsplit]
    rw [List.foldl_append, List.foldl_cons, List.foldl_nil]
  refine ⟨?_, ?_, ?_, ?_⟩
  · intro es
    exact addAll_length_le segment es (emptyCache α maxE) hwf0 hmax (by simp [emptyCache])
  · rw [hfold, hover, List.length_append, List.length_drop, hc1exact, htlen, hc1max]
    rfl
  · rw [hfold, hover, List.length_append, List.length_drop, hc1exact, htlen, hc1max]
    show maxE - maxE / 4 + 1 ≤ maxE
    omega
  · intro k q hmem
    have hwf : CacheWF segment (entries.foldl
        (fun c2 p2 => IntentCache.add segment c2 p2.1 p2.2) (emptyCache α maxE)) :=
      CacheWF.addAll segment entries hwf0
    exact (hwf.memIff k q |>.mp hmem).2

/-- C4 witness: the amended theorem applied at maxE = 8 with 9 concrete
distinct entries, checking the exact post-insertion size 8 - 2 + 1 = 7. -/
theorem claim4_witness :
    (4 ≤ 8 ∧ ((([("b0", 0), ("b1", 0), ("b2", 0), ("b3", 0), ("b4", 0)
      , ("b5", 0), ("b6", 0), ("b7", 0), ("b8", 0)] : List (String × Nat)).map
        Prod.fst).Nodup)
    ∧ ([("b0", 0), ("b1", 0), ("b2", 0), ("b3", 0), ("b4", 0)
      , ("b5", 0), ("b6", 0), ("b7", 0), ("b8", 0)] : List (String × Nat)).length = 8 + 1)
    ∧ (([("b0", 0), ("b1", 0), ("b2", 0), ("b3", 0), ("b4", 0)
      , ("b5", 0), ("b6", 0), ("b7", 0), ("b8", 0)] : List (String × Nat)).foldl
        (fun c2 p => IntentCache.add segNone c2 p.1 p.2)
        (emptyCache Nat 8)).exact.length = 8 - 8 / 4 + 1 :=
  ⟨⟨by decide, by decide, by decide⟩,
    (claim4_eviction_bound segNone 8 (by decide) _ (by decide) (by decide)).2.1⟩

/-! ## C5: exact-match idempotence and precedence -/

/-- C5 (confirmed): after add(q, v) a lookup of q at any threshold returns
v (the exact branch); and whenever q2 is an exact-cache key, lookup
returns the stored entry for q2 directly (the result is alookup on the
exact cache, independent of the threshold and of the keyword index, so it
never falls through to fuzzy matching). -/
theorem claim5_cache_idempotence (segment : String → List String) {α : Type}
    (c : IntentCache α) (q : String) (v : α) (thr thr2 : ℚ) :
    IntentCache.lookup segment (IntentCache.add segment c q v) q thr = some v
    ∧ (∀ q2, (alookup q2 c.exact).isSome →
        IntentCache.lookup segment c q2 thr2 = alookup q2 c.exact) := by
  refine ⟨lookup_after_add segment c q v thr, ?_⟩
  intro q2 h
  obtain ⟨v2, hv2⟩ := Option.isSome_iff_exists.mp h
  rw [hv2]
  exact lookup_exact_hit segment c q2 thr2 hv2

/-- C5 witness: the theorem applied at a concrete one-entry cache. -/
theorem claim5_witness :
    IntentCache.lookup segNone
        (IntentCache.add segNone (emptyCache Nat 10) "hi" 5) "hi" (mkRat 7 10)
      = some 5
    ∧ ((alookup "hi" (IntentCache.add segNone (emptyCache Nat 10) "hi" 5).exact).isSome
    ∧ IntentCache.lookup segNone (IntentCache.add segNone (emptyCache Nat 10) "hi" 5)
        "hi" (mkRat 1 2)
      = alookup "hi" (IntentCache.add segNone (emptyCache Nat 10) "hi" 5).exact) :=
  ⟨(claim5_cache_idempotence segNone (emptyCache Nat 10) "hi" 5 (mkRat 7 10)
      (mkRat 1 2)).1,
   by decide,
   (claim5_cache_idempotence segNone (IntentCache.add segNone (emptyCache Nat 10) "hi" 5)
      "hi" 5 (mkRat 7 10) (mkRat 1 2)).2 "hi" (by decide)⟩

/-! ## C6: fuzzy lookup computes Jaccard similarity -/

/-- Segmenter for the spec's two-keyword-set example: qa has keyword set
{ka, kb} and qb has {ka, kc}. -/
def segJaccard : String → List String := fun s =>
  if s = "qa" then ["ka", "kb"] else if s = "qb" then ["ka", "kc"] else []

/-- A one-entry cache holding qa. -/
def cacheJaccard : IntentCache Nat :=
  IntentCache.add segJaccard (emptyCache Nat 1000) "qa" 42

/-- C6 (confirmed): for a non-exact-match query, the per-candidate score
computed by _find_best_match equals the spec's Jaccard similarity
(intersection over union of the keyword sets), the selected score bounds
every candidate's similarity, and lookup returns the best candidate's
cached entry exactly when the similarity reaches the threshold, else a
miss; on the concrete keyword sets {ka,kb} and {ka,kc} the similarity is
1/3, so lookup hits at every threshold at most 1/3 and misses at every
threshold above 1/3. -/
theorem claim6_jaccard_lookup (segment : String → List String) {α : Type}
    (c : IntentCache α) (q : String) (thr : ℚ)
    (hq : alookup q c.exact = none)
    (hkw : extractKeywords segment q ≠ [])
    (hc : findCandidates c.index (extractKeywords segment q) ≠ []) :
    (∀ cand ∈ findCandidates c.index (extractKeywords segment q),
        candidateSim segment (extractKeywords segment q).dedup cand.1
          = jaccardSpec (extractKeywords segment q) (extractKeywords segment cand.1))
    ∧ (∀ cand ∈ findCandidates c.index (extractKeywords segment q),
        jaccardSpec (extractKeywords segment q) (extractKeywords segment cand.1)
          ≤ (findBestMatch segment (extractKeywords segment q)
              (findCandidates c.index (extractKeywords segment q))).2)
    ∧ IntentCache.lookup segment c q thr =
        (if thr ≤ (findBestMatch segment (extractKeywords segment q)
            (findCandidates c.index (extractKeywords segment q))).2
         then alookup (findBestMatch segment (extractKeywords segment q)
            (findCandidates c.index (extractKeywords segment q))).1 c.exact
         else none)
    ∧ candidateSim segJaccard (extractKeywords segJaccard "qb").dedup "qa" = mkRat 1 3
    ∧ (∀ t : ℚ, t ≤ mkRat 1 3 →
        IntentCache.lookup segJaccard cacheJaccard "qb" t = some 42)
    ∧ (∀ t : ℚ, mkRat 1 3 < t →
        IntentCache.lookup segJaccard cacheJaccard "qb" t = none) := by
  have hbest := bestFold_spec segment (extractKeywords segment q).dedup
    (findCandidates c.index (extractKeywords segment q)) ("", 0)
  have hbm : IntentCache.lookup segJaccard cacheJaccard "qb" =
      fun t => if t ≤ (mkRat 1 3 : ℚ) then some 42 else none := by
    funext t
    rw [lookup_fuzzy_eq segJaccard cacheJaccard "qb" t (by decide) (by decide) (by decide)]
    have h1 : (findBestMatch segJaccard (extractKeywords segJaccard "qb")
        (findCandidates cacheJaccard.index (extractKeywords segJaccard "qb")))
        = ("qa", mkRat 1 3) := by decide
    rw [h1]
    by_cases ht : t ≤ (mkRat 1 3 : ℚ)
    · rw [if_pos ht, if_pos ht]
      decide
    · rw [if_neg ht, if_neg ht]
  refine ⟨?_, ?_, ?_, by decide, ?_, ?_⟩
  · intro cand _
    exact candidateSim_eq_jaccardSpec segment (extractKeywords segment q) cand.1
  · intro cand hcand
    rw [← candidateSim_eq_jaccardSpec segment (extractKeywords segment q) cand.1]
    rw [findBestMatch_eq_foldl]
    exact hbest.2.1 cand hcand
  · exact lookup_fuzzy_eq segment c q thr hq hkw hc
  · intro t ht
    rw [hbm]
    exact if_pos ht
  · intro t ht
    rw [hbm]
    exact if_neg (not_le.mpr ht)

/-- C6 witness: the theorem applied at the concrete {ka,kb}/{ka,kc}
scenario, giving the hit at threshold 1/3 and the miss at 0.34. -/
theorem claim6_witness :
    IntentCache.lookup segJaccard cacheJaccard "qb" (mkRat 1 3) = some 42
    ∧ IntentCache.lookup segJaccard cacheJaccard "qb" (mkRat 34 100) = none :=
  ⟨(claim6_jaccard_lookup segJaccard cacheJaccard "qb" (mkRat 1 3)
      (by decide) (by decide) (by decide)).2.2.2.2.1 (mkRat 1 3) (by decide),
   (claim6_jaccard_lookup segJaccard cacheJaccard "qb" (mkRat 34 100)
      (by decide) (by decide) (by decide)).2.2.2.2.2 (mkRat 34 100) (by decide)⟩

/-! ## C7: the keyword-index invariant -/

/-- C7 (confirmed): after a load (from any stored exact cache with unique
keys, as a dict guarantees) followed by any sequence of adds (each of
which may trigger eviction), a query appears in bucket k of the keyword
index exactly when k is one of its extracted keywords and the query is a
current exact-cache key, and no bucket is empty. -/
theorem claim7_index_invariant (segment : String → List String) {α : Type}
    (maxE : Nat) (loaded : List (String × α))
    (hn : (loaded.map Prod.fst).Nodup) (ops : List (String × α)) :
    (∀ k q, memIdxB (ops.foldl (fun c2 p => IntentCache.add segment c2 p.1 p.2)
          (loadCache segment maxE loaded)).index k q = true ↔
        (k ∈ extractKeywords segment q ∧
          q ∈ (ops.foldl (fun c2 p => IntentCache.add segment c2 p.1 p.2)
            (loadCache segment maxE loaded)).exact.map Prod.fst))
    ∧ (∀ p ∈ (ops.foldl (fun c2 p => IntentCache.add segment c2 p.1 p.2)
          (loadCache segment maxE loaded)).index, Prod.snd p ≠ []) := by
  have hwf : CacheWF segment (ops.foldl (fun c2 p => IntentCache.add segment c2 p.1 p.2)
      (loadCache segment maxE loaded)) :=
    CacheWF.addAll segment ops (CacheWF.load segment maxE loaded hn)
  exact ⟨hwf.memIff, hwf.bNonempty⟩

/-- C7 witness: the invariant instantiated at a concrete loaded cache and
one subsequent add. -/
theorem claim7_witness :
    ((([("qa", 1)] : List (String × Nat)).map Prod.fst).Nodup)
    ∧ ((∀ k q, memIdxB (([("qb", 2)] : List (String × Nat)).foldl
          (fun c2 p => IntentCache.add segJaccard c2 p.1 p.2)
          (loadCache segJaccard 1000 [("qa", 1)])).index k q = true ↔
        (k ∈ extractKeywords segJaccard q ∧
          q ∈ (([("qb", 2)] : List (String × Nat)).foldl
            (fun c2 p => IntentCache.add segJaccard c2 p.1 p.2)
            (loadCache segJaccard 1000 [("qa", 1)])).exact.map Prod.fst))
      ∧ (∀ p ∈ (([("qb", 2)] : List (String × Nat)).foldl
            (fun c2 p => IntentCache.add segJaccard c2 p.1 p.2)
            (loadCache segJaccard 1000 [("qa", 1)])).index, Prod.snd p ≠ [])) :=
  ⟨by decide, claim7_index_invariant segJaccard 1000 [("qa", 1)] (by decide) [("qb", 2)]⟩

/-! ## C8: unregistered tool routing -/

/-- C8 (confirmed): when the intent names no registered tool (including a
missing tool name), execute_tool_async returns status NOT_FOUND with an
empty event trace: no connection attempt and no invocation happens,
whatever the session table, connection outcome, call outcome and
parameters. -/
theorem claim8_unregistered_tool (sessions : List (String × List String))
    (intent : Intent) (connectOutcome : Option (List String))
    (callOutcome : Except String String) (rawParams : List (String × String))
    (h : ∀ t, intent.tool_name = some t → t ∉ registeredTools) :
    (executeToolM sessions intent connectOutcome callOutcome rawParams).1.status
      = ToolStatus.notFound
    ∧ (executeToolM sessions intent connectOutcome callOutcome rawParams).2 = [] := by
  unfold executeToolM
  cases htn : intent.tool_name with
  | none => exact ⟨rfl, rfl⟩
  | some t =>
    have hreg : t ∉ registeredTools := h t htn
    simp only [if_neg hreg]
    exact ⟨trivial, trivial⟩

/-- C8 witness: routing an intent naming the unregistered tool
"translator". -/
theorem claim8_witness :
    (executeToolM [("weather", ["query_weather"])]
      { type := .TOOL_SPECIFIC, confidence := mkRat 9 10
      , tool_name := some "translator", entities := [], raw_query := "translate" }
      none (Except.ok "ok") []).1.status = ToolStatus.notFound
    ∧ (executeToolM [("weather", ["query_weather"])]
      { type := .TOOL_SPECIFIC, confidence := mkRat 9 10
      , tool_name := some "translator", entities := [], raw_query := "translate" }
      none (Except.ok "ok") []).2 = [] :=
  claim8_unregistered_tool _ _ _ _ _
    (by
      intro t ht
      rw [Option.some.injEq] at ht
      subst ht
      decide)

/-! ## C9: fuzzy tie-breaking order -/

/-- Segmenter for the tie-break scenario: q1 has keywords {bb, xx}, q2
has {aa, yy}, and the query qq has {aa, bb}, so each query shares exactly
one keyword with qq and both similarities are 1/3. -/
def segTie : String → List String := fun s =>
  if s = "q1" then ["bb", "xx"]
  else if s = "q2" then ["aa", "yy"]
  else if s = "qq" then ["aa", "bb"] else []

/-- Cache with q1 inserted before q2. -/
def cacheTie : IntentCache Nat :=
  IntentCache.add segTie (IntentCache.add segTie (emptyCache Nat 1000) "q1" 1) "q2" 2

/-- C9 counterexample: q1 (entry 1) was inserted before q2 (entry 2) and
both attain the maximal similarity 1/3 to qq, yet lookup returns the entry
of q2: candidates are discovered by iterating the query's keywords (aa
before bb), and aa's bucket holds q2, so q2 is first-seen even though q1
is first by insertion order. Every bucket involved is a singleton, so
this order does not depend on Python set iteration order. -/
theorem claim9_counterexample :
    cacheTie.exact.map Prod.fst = ["q1", "q2"]
    ∧ candidateSim segTie (extractKeywords segTie "qq").dedup "q1" = mkRat 1 3
    ∧ candidateSim segTie (extractKeywords segTie "qq").dedup "q2" = mkRat 1 3
    ∧ (findCandidates cacheTie.index (extractKeywords segTie "qq")).map Prod.fst
        = ["q2", "q1"]
    ∧ IntentCache.lookup segTie cacheTie "qq" (mkRat 1 4) = some 2
    ∧ alookup "q1" cacheTie.exact = some 1
    ∧ ¬ ((2 : Nat) = 1) := by
  refine ⟨by decide, by decide, by decide, by decide, by decide, by decide, by decide⟩

/-- C9 (amended): when the winning similarity is positive, the candidate
returned by _find_best_match is the first candidate, in the
candidate-discovery order of _find_candidates (query-keyword order, then
bucket order), attaining the maximal similarity; every candidate's
similarity is bounded by the winner's. This first-seen order is the
candidates-dict construction order, not cache insertion order. -/
theorem claim9_tiebreak_discovery_order (segment : String → List String)
    (qkws : List String) (cands : List (String × Nat))
    (hpos : 0 < (findBestMatch segment qkws cands).2) :
    (∀ c2 ∈ cands, candidateSim segment qkws.dedup c2.1
        ≤ (findBestMatch segment qkws cands).2)
    ∧ ((cands.find? fun c2 => candidateSim segment qkws.dedup c2.1
          = (findBestMatch segment qkws cands).2).map Prod.fst
        = some (findBestMatch segment qkws cands).1) := by
  have hspec := bestFold_spec segment qkws.dedup cands ("", 0)
  rw [← findBestMatch_eq_foldl] at hspec
  refine ⟨hspec.2.1, ?_⟩
  rcases hspec.2.2 with h | ⟨-, h⟩
  · rw [h] at hpos
    exact absurd hpos (by decide)
  · exact h

/-- C9 witness: the amended theorem applied at the tie scenario, where
the first candidate in discovery order attaining 1/3 is q2. -/
theorem claim9_witness :
    0 < (findBestMatch segTie (extractKeywords segTie "qq")
        (findCandidates cacheTie.index (extractKeywords segTie "qq"))).2
    ∧ ((((findCandidates cacheTie.index (extractKeywords segTie "qq")).find?
        fun c2 => candidateSim segTie (extractKeywords segTie "qq").dedup c2.1
          = (findBestMatch segTie (extractKeywords segTie "qq")
              (findCandidates cacheTie.index (extractKeywords segTie "qq"))).2).map
        Prod.fst)
      = some (findBestMatch segTie (extractKeywords segTie "qq")
          (findCandidates cacheTie.index (extractKeywords segTie "qq"))).1) :=
  ⟨by decide,
   (claim9_tiebreak_discovery_order segTie (extractKeywords segTie "qq")
      (findCandidates cacheTie.index (extractKeywords segTie "qq")) (by decide)).2⟩

/-! ## C10: what a fuzzy hit returns -/

/-- Segmenter for the mixed-case scenario: both the cached query and the
later query share the keywords {NYC, 天气}. -/
def segCase : String → List String := fun s =>
  if s = "NYC天气" then ["NYC", "天气"]
  else if s = "NYC天气？" then ["NYC", "天气"] else []

/-- The cache produced by recognizing "NYC天气" (rule fires on 天气 at
0.7, model consulted, merged result cached). -/
def cacheCase : IntentCache IntentDict :=
  (recognize segCase (emptyCache IntentDict 1000) "NYC天气" .noJson).2

/-- The entry stored for "NYC天气" by the recognition above. -/
def storedCaseDict : IntentDict :=
  { type := "TOOL_SPECIFIC", confidence := mkRat 7 10
  , tool_name := some "weather", entities := [], raw_query := "nyc天气" }

/-- C10 counterexample: the later query "NYC天气？" fuzzy-hits the cached
query q2 = "NYC天气", and the returned entry is exactly the stored one —
but its raw_query is "nyc天气" (the rule engine lower-cased the text
before recording it), not the cached query text "NYC天气" as the claim
states, and not the input text either. -/
theorem claim10_counterexample :
    cacheCase.exact.map Prod.fst = ["NYC天气"]
    ∧ ¬ ("NYC天气？" = "NYC天气")
    ∧ IntentCache.lookup segCase cacheCase "NYC天气？" (mkRat 7 10)
        = some storedCaseDict
    ∧ (Intent.fromDict storedCaseDict).map Intent.raw_query = some "nyc天气"
    ∧ ¬ ("nyc天气" = "NYC天气") := by
  refine ⟨by decide, by decide, by decide, by decide, by decide⟩

/-- C10 (amended): every lookup that hits only via fuzzy matching returns
exactly the entry stored for some cached query q2 different from the
input q, and the intent reconstructed by Intent.from_dict carries the
raw_query recorded in that stored entry — which is the lower-cased q2
when the entry came from the rule engine, not necessarily q2 itself, and
never the input text q unless it was stored so. -/
theorem claim10_fuzzy_entry (segment : String → List String)
    (c : IntentCache IntentDict) (q : String) (thr : ℚ) (d : IntentDict)
    (hq : alookup q c.exact = none)
    (hd : IntentCache.lookup segment c q thr = some d) :
    (∃ q2, ¬ (q2 = q) ∧ alookup q2 c.exact = some d)
    ∧ (∀ i, Intent.fromDict d = some i → i.raw_query = d.raw_query) := by
  constructor
  · by_cases hkw : extractKeywords segment q = []
    · exfalso
      unfold IntentCache.lookup at hd
      rw [hq] at hd
      simp only [hkw, if_pos] at hd
      cases hd
    · by_cases hc : findCandidates c.index (extractKeywords segment q) = []
      · exfalso
        unfold IntentCache.lookup at hd
        rw [hq] at hd
        simp [hkw, hc] at hd
      · rw [lookup_fuzzy_eq segment c q thr hq hkw hc] at hd
        by_cases ht : thr ≤ (findBestMatch segment (extractKeywords segment q)
            (findCandidates c.index (extractKeywords segment q))).2
        · rw [if_pos ht] at hd
          refine ⟨(findBestMatch segment (extractKeywords segment q)
              (findCandidates c.index (extractKeywords segment q))).1, ?_, hd⟩
          intro heq
          rw [heq, hq] at hd
          cases hd
        · rw [if_neg ht] at hd
          cases hd
  · intro i hi
    unfold Intent.fromDict at hi
    cases hty : intentTypeFromName d.type with
    | none =>
      rw [hty] at hi
      cases hi
    | some t =>
      rw [hty] at hi
      simp only [Option.map_some', Option.some.injEq] at hi
      rw [← hi]

/-- C10 witness: the amended theorem applied at the mixed-case scenario:
the fuzzy hit on "NYC天气？" returns the entry stored for "NYC天气",
whose recorded raw_query is "nyc天气". -/
theorem claim10_witness :
    (∃ q2, ¬ (q2 = "NYC天气？") ∧ alookup q2 cacheCase.exact = some storedCaseDict)
    ∧ (∀ i, Intent.fromDict storedCaseDict = some i →
        i.raw_query = storedCaseDict.raw_query) :=
  claim10_fuzzy_entry segCase cacheCase "NYC天气？" (mkRat 7 10) storedCaseDict
    (by decide) (by decide)

end Assistant
